import Mathlib

/-
A shallow embedding of the TradeDangerous profit calculator (tradecalc.py).

Machine integers of the source are modelled as Nat/Int (Python integers are
unbounded, so no wrap-around modelling is needed).  Credit amounts that the
source keeps as Python ints are Int where they can go negative and Nat where
the surrounding code guarantees non-negativity.  Scores and distances, floats
in the source, are modelled as rationals: every operation performed on them
(the ls-penalty polynomial, comparisons) is exact field arithmetic.
-/

set_option maxHeartbeats 1000000
set_option maxRecDepth 100000

deriving instance DecidableEq for Except

namespace TD

/-- An item offer at a source station for sale towards a fixed destination
(`Trade` rows of tradedb; the fields are the ones tradecalc.py reads).
`stock = -1` means unknown, `gainCr` is signed profit per unit. -/
structure Item where
  item : Nat
  costCr : Nat
  gainCr : Int
  stock : Int
  stockLevel : Int
  srcAge : Nat
  dstAge : Nat
deriving DecidableEq

/-- `TradeLoad(items, gainCr, costCr, units)` of tradecalc.py (lines 26-31).
Its truthiness in the source is `units > 0`. -/
structure TradeLoad where
  items : List (Item × Nat)
  gainCr : Int
  costCr : Nat
  units : Nat
deriving DecidableEq

/-- `emptyLoad = TradeLoad([], 0, 0, 0)` (line 32). -/
def emptyLoad : TradeLoad := ⟨[], 0, 0, 0⟩

/-- The per-offer maximum purchasable quantity, shared verbatim by
`bruteForceFit._fitCombos` (lines 264-280) and `fastFit._fitCombos`
(lines 336-352):
`maxQty = min(maxUnits, cap, cr // itemCost)` followed by the stock /
speculative-recovery adjustment.  The source hardcodes `units = 0`
("disabled for now"), multiplying the recovery term to zero; the interval
`(30 / level) * 60` seconds is kept as `1800 / level` (for `level > 1` the
float computation of the source is exact). -/
def maxQtyFor (maxUnits cr cap : Nat) (it : Item) : Nat :=
  let maxQty := min maxUnits (min cap (cr / it.costCr))
  if it.stock < (maxQty : Int) ∧ 0 < it.stock then
    let level := it.stockLevel
    let speculativeRecovery : Int :=
      if 1 < level then
        -- `units = level - 1` is disabled in the source: `units = 0`
        0 * ((it.srcAge : Int) * level / 1800)
      else
        0
    min maxQty (it.stock + speculativeRecovery).toNat
  else
    maxQty

/-- One iteration of the `for qty in range(maxQty)` loop body of
`bruteForceFit._fitCombos` (lines 284-302); the loop variable `qty` is unused
by the body, which always takes `maxQty` units. -/
def bruteStep (load subLoad bestLoad : TradeLoad) : TradeLoad :=
  let combGain := load.gainCr + subLoad.gainCr
  if combGain < bestLoad.gainCr then bestLoad
  else
    let combCost := load.costCr + subLoad.costCr
    let combWeight := load.units + subLoad.units
    if combGain = bestLoad.gainCr ∧
        (bestLoad.units < combWeight ∨
          (combWeight = bestLoad.units ∧ bestLoad.costCr ≤ combCost)) then
      bestLoad
    else
      ⟨load.items ++ subLoad.items, load.gainCr + subLoad.gainCr,
       load.costCr + subLoad.costCr, load.units + subLoad.units⟩

/-- `bruteForceFit._fitCombos(offset, cr, cap)` (lines 257-303), with the
`offset` pointer replaced by the list suffix it denotes. -/
def bffFitCombos (maxUnits : Nat) : List Item → Nat → Nat → TradeLoad
  | [], _, _ => emptyLoad
  | item :: rest, cr, cap =>
    let bestLoad := bffFitCombos maxUnits rest cr cap
    let maxQty := maxQtyFor maxUnits cr cap item
    if 0 < maxQty then
      let load : TradeLoad :=
        ⟨[(item, maxQty)], item.gainCr * (maxQty : Int), item.costCr * maxQty, maxQty⟩
      let subLoad := bffFitCombos maxUnits rest (cr - load.costCr) (cap - load.units)
      (List.range maxQty).foldl (fun bestLoad _ => bruteStep load subLoad bestLoad) bestLoad
    else bestLoad

/-- `TradeCalc.bruteForceFit(items, credits, capacity, maxUnits)`
(lines 251-306). -/
def bruteForceFit (items : List Item) (credits capacity maxUnits : Nat) : TradeLoad :=
  bffFitCombos maxUnits items credits capacity

/-- The inner `for subLoad in _fitCombos(offset+1, crLeft, capLeft)` loop of
`fastFit._fitCombos` (lines 363-374), which yields the combined load for every
sub-load accepted by `subLoad.gainCr > 0 and subLoad.gainCr >= bestGainCr`,
followed by the lone partial load when nothing was accepted
(`if bestGainCr < 0: yield ...`). -/
def ffCollectGo (load : TradeLoad) : Int → List TradeLoad → List TradeLoad
  | bestGainCr, [] => if bestGainCr < 0 then [load] else []
  | bestGainCr, subLoad :: subs =>
    if 0 < subLoad.gainCr ∧ bestGainCr ≤ subLoad.gainCr then
      ⟨subLoad.items ++ load.items, subLoad.gainCr + load.gainCr,
       subLoad.costCr + load.costCr, subLoad.units + load.units⟩ ::
        ffCollectGo load subLoad.gainCr subs
    else
      ffCollectGo load bestGainCr subs

/-- `fastFit._fitCombos(offset, cr, cap)` (lines 315-375) as the list of loads
the generator yields, in yield order.  The `for item in items[offset:]` loop
with its trailing `offset += 1` becomes list recursion; when
`crLeft > 0 and capLeft > 0` fails the source skips the sub-enumeration and
yields the partial load alone (`bestGainCr` stays `-1`). -/
def ffFitCombos (maxUnits : Nat) : List Item → Nat → Nat → List TradeLoad
  | [], _, _ => []
  | item :: rest, cr, cap =>
    (let maxQty := maxQtyFor maxUnits cr cap item
     if 0 < maxQty then
      let loadCostCr := maxQty * item.costCr
      let loadGainCr := (maxQty : Int) * item.gainCr
      let load : TradeLoad := ⟨[(item, maxQty)], loadGainCr, loadCostCr, maxQty⟩
      let crLeft := cr - loadCostCr
      let capLeft := cap - maxQty
      if 0 < crLeft ∧ 0 < capLeft then
        ffCollectGo load (-1) (ffFitCombos maxUnits rest crLeft capLeft)
      else
        [load]
     else []) ++ ffFitCombos maxUnits rest cr cap

/-- `TradeCalc.fastFit(items, credits, capacity, maxUnits)` (lines 309-387):
fold the yielded candidates with the source's replacement condition
`not bestLoad or (gain > or (gain = and (units < or (units = and cost <))))`. -/
def fastFit (items : List Item) (credits capacity maxUnits : Nat) : TradeLoad :=
  (ffFitCombos maxUnits items credits capacity).foldl
    (fun bestLoad result =>
      if bestLoad.units = 0 ∨ bestLoad.gainCr < result.gainCr ∨
          (result.gainCr = bestLoad.gainCr ∧
            (result.units < bestLoad.units ∨
              (result.units = bestLoad.units ∧ result.costCr < bestLoad.costCr))) then
        result
      else bestLoad)
    emptyLoad

/-- A station of the trade database (tradedb is external to the calculator;
only the fields tradecalc.py reads are modelled).  `tradingWith` maps a
destination station ID to the offer list for that pair; the source populates
it lazily through `tdb.loadStationTrades`, which is modelled as the mapping
being present.  Python's `in`/`==` on stations is modelled structurally. -/
structure Station where
  ID : Nat
  lsFromStar : Nat
  tradingWith : List (Nat × List Item)
deriving DecidableEq

/-- A destination candidate produced by the external `tdb.getDestinations`:
destination system (by id), station, distance in ly, and the jump path
`via` (a list of system ids). -/
structure Dest where
  system : Nat
  station : Station
  distLy : ℚ
  via : List Nat
deriving DecidableEq

/-- A member of a `restrictTo` set: a station or a system. -/
inductive Place where
  | station (id : Nat)
  | system (id : Nat)
deriving DecidableEq

/-- `Route` (lines 42-69): station chain, hop loads, starting credits,
cumulative gain, per-hop jump paths and cumulative score. -/
structure Route where
  route : List Station
  hops : List TradeLoad
  startCr : Int
  gainCr : Int
  jumps : List (List Nat)
  score : ℚ
deriving DecidableEq

/-- `Route.plus(dst, hop, jumps, score)` (lines 58-69); `hop[1]` is the
load's `gainCr` field. -/
def Route.plus (r : Route) (dst : Station) (hop : TradeLoad) (jumps : List Nat)
    (score : ℚ) : Route :=
  ⟨r.route ++ [dst], r.hops ++ [hop], r.startCr, r.gainCr + hop.gainCr,
   r.jumps ++ [jumps], r.score + score⟩

/-- `Route.__lt__` (lines 72-75): `self < rhs` iff `rhs.score < self.score`,
or scores equal and `len(rhs.jumps) < len(self.jumps)`. -/
def Route.lt (r1 r2 : Route) : Bool :=
  if r2.score < r1.score then true
  else decide (r2.score = r1.score) && decide (r2.jumps.length < r1.jumps.length)

/-- `Route.__eq__` (lines 78-79). -/
def Route.eq (r1 r2 : Route) : Bool :=
  decide (r1.score = r2.score) && decide (r1.jumps.length = r2.jumps.length)

/-- The user environment (`tdenv`) fields read by `getBestTrade` and
`getBestHops`.  `limit = 0` models an unset limit (`getattr(tdenv,'limit') or
capacity`); `getDestinations` stands for the external
`tdb.getDestinations(srcStation, maxJumps, maxLyPer, avoidPlaces,
trading=True)` call with those options already applied. -/
structure TDEnv where
  credits : Int
  insurance : Int
  capacity : Nat
  limit : Nat
  avoidItems : List Nat
  maxAge : Nat
  margin : ℚ
  unique : Bool
  lsPenalty : ℚ
  getDestinations : Station → List Dest

/-- `maxUnits = getattr(tdenv, 'limit') or capacity` (line 411). -/
def envMaxUnits (tdenv : TDEnv) : Nat :=
  if tdenv.limit = 0 then tdenv.capacity else tdenv.limit

/-- Python's `min(items, key=lambda item: item.costCr)` over `x :: l`:
the first element of minimal cost. -/
def minByCost (x : Item) (l : List Item) : Item :=
  l.foldl (fun m it => if it.costCr < m.costCr then it else m) x

/-- The pre-filter of `getBestTrade` (lines 425-434): the gain floor is the
gain of the first minimum-cost offer, computed before the affordability test;
kept are affordable offers that beat that gain, plus the cheapest offer
itself.  `item == firstItem` is modelled as structural equality. -/
def preFilter (credits : Int) (items : List Item) : List Item :=
  match items with
  | [] => []
  | x :: xs =>
    let firstItem := minByCost x xs
    (x :: xs).filter (fun it =>
      decide ((it.costCr : Int) ≤ credits) &&
        (decide (firstItem.gainCr < it.gainCr) || it == firstItem))

/-- The `avoidItems` and `maxAge` filters of `getBestTrade` (lines 414-421);
both are applied only when the corresponding option is truthy. -/
def ageAvoidFilter (tdenv : TDEnv) (items : List Item) : List Item :=
  let items := if tdenv.avoidItems ≠ [] then
      items.filter (fun it => !(tdenv.avoidItems.contains it.item))
    else items
  if tdenv.maxAge ≠ 0 then
    items.filter (fun it => max it.srcAge it.dstAge < tdenv.maxAge * 86400)
  else items

/-- `TradeCalc.getBestTrade(src, dst, credits)` (lines 390-455).  Raised
`ValueError`s become `Except.error`; the real messages are
"`%s does not have a link to %s`" and "`zero capacity`".  The final
`fitFunction` call passes the Python int `credits` unchanged; it is modelled
as `credits.toNat`, faithful because the pre-filter guarantees every
remaining offer satisfies `costCr ≤ credits`, so a non-empty offer list
implies `credits ≥ 0`. -/
def getBestTrade (tdenv : TDEnv) (src dst : Station) (credits : Int) :
    Except String TradeLoad :=
  match src.tradingWith.lookup dst.ID with
  | none => .error ("no link")
  | some items =>
    if tdenv.capacity = 0 then .error ("zero capacity")
    else
      let maxUnits := envMaxUnits tdenv
      let items := ageAvoidFilter tdenv items
      let items := preFilter credits items
      match items with
      | [] => .ok emptyLoad
      | firstItem :: rest =>
        if tdenv.capacity ≤ maxUnits ∧
            ((firstItem.costCr * tdenv.capacity : Nat) : Int) ≤ credits then
          if firstItem.stock < 0 ∨ (maxUnits : Int) ≤ firstItem.stock then
            .ok ⟨[(firstItem, tdenv.capacity)],
                 (tdenv.capacity : Int) * firstItem.gainCr,
                 tdenv.capacity * firstItem.costCr, tdenv.capacity⟩
          else
            .ok (fastFit (firstItem :: rest) credits.toNat tdenv.capacity maxUnits)
        else
          .ok (fastFit (firstItem :: rest) credits.toNat tdenv.capacity maxUnits)

/-- `int(x)` of Python on a real value: truncation towards zero. -/
def truncToInt (q : ℚ) : Int := if 0 ≤ q then ⌊q⌋ else ⌈q⌉

/-- The score multiplier `1 - penalty` of `getBestHops` (lines 533-543) with
`cruiseKls = int(lsFromStar / 100) / 10` and
`penalty = ((cruiseKls ** 2) - cruiseKls) / 3 * lsPenalty`. -/
def lsMult (lsPenalty : ℚ) (lsFromStar : Nat) : ℚ :=
  1 - ((((lsFromStar / 100 : Nat) : ℚ) / 10) ^ 2 - (((lsFromStar / 100 : Nat) : ℚ) / 10)) / 3 * lsPenalty

/-- The hop score computed in `getBestHops` (lines 533-543): `score =
trade.gainCr`, then `score *= (1 - penalty)` when `lsPenalty` is non-zero. -/
def hopScore (lsPenalty : ℚ) (lsFromStar : Nat) (gainCr : Int) : ℚ :=
  if lsPenalty ≠ 0 then
    let cruiseKls : ℚ := ((lsFromStar / 100 : Nat) : ℚ) / 10
    let penalty := (cruiseKls ^ 2 - cruiseKls) / 3 * lsPenalty
    (gainCr : ℚ) * (1 - penalty)
  else (gainCr : ℚ)

/-- One value of the `bestToDest` dictionary of `getBestHops` (line 558):
`[dstStation, route, trade, dest.via, dstLy, score]`. -/
structure HopCand where
  dstStation : Station
  route : Route
  trade : TradeLoad
  via : List Nat
  distLy : ℚ
  score : ℚ
deriving DecidableEq

/-- The total score `route.score + hop_score` under which `getBestHops`
compares two candidates for one destination (lines 549-550). -/
def candTotal (c : HopCand) : ℚ := c.route.score + c.score

/-- Truthiness of the `restrictTo` argument (`if restrictTo:` at line 517):
`None` and the empty set are both falsy. -/
def restrictTruthy : Option (List Place) → Bool
  | none => false
  | some l => decide (l ≠ [])

/-- The `restrictTo` skip of `getBestHops` (lines 517-521): only applied when
`restrictTo` is truthy, and skips destinations matching neither the station
nor the system set. -/
def restrictSkip (restrictTo : Option (List Place)) (dest : Dest) : Bool :=
  restrictTruthy restrictTo &&
    !(decide (Place.station dest.station.ID ∈ restrictTo.getD []) ||
      decide (Place.system dest.system ∈ restrictTo.getD []))

/-- The body of the `for dest in tdb.getDestinations(...)` loop of
`getBestHops` (lines 503-558) up to the `bestToDest` update: produce the
candidate for one destination, `none` when a `continue` fires, or the
propagated `getBestTrade` error. -/
def destCands (tdenv : TDEnv) (lsPenalty : ℚ) (restrictTo : Option (List Place))
    (route : Route) (srcStation : Station) (startCr : Int) :
    List Dest → Except String (List HopCand)
  | [] => .ok []
  | dest :: rest =>
    let keep : Except String (Option HopCand) :=
      if restrictSkip restrictTo dest then .ok none
      else if tdenv.unique && decide (dest.station ∈ route.route) then .ok none
      else
        match getBestTrade tdenv srcStation dest.station startCr with
        | .error e => .error e
        | .ok trade =>
          if trade.units = 0 then .ok none
          else
            let score := hopScore lsPenalty dest.station.lsFromStar trade.gainCr
            .ok (some ⟨dest.station, route, trade, dest.via, dest.distLy, score⟩)
    match keep with
    | .error e => .error e
    | .ok none => destCands tdenv lsPenalty restrictTo route srcStation startCr rest
    | .ok (some c) =>
      match destCands tdenv lsPenalty restrictTo route srcStation startCr rest with
      | .error e => .error e
      | .ok cs => .ok (c :: cs)

/-- The `for route in routes` loop of `getBestHops` (lines 496-558), flattened
to the sequence of candidates that reach the `bestToDest` update, in
examination order.  `srcStation = route.route[-1]`;
`startCr = credits + int(route.gainCr * safetyMargin)` with
`credits = tdenv.credits - insurance` and `safetyMargin = 1 - margin`. -/
def routeCandsE (tdenv : TDEnv) (lsPenalty : ℚ) (restrictTo : Option (List Place)) :
    List Route → Except String (List HopCand)
  | [] => .ok []
  | route :: routes =>
    let srcStation := route.route.getLastD ⟨0, 0, []⟩
    let startCr := (tdenv.credits - tdenv.insurance) +
      truncToInt ((route.gainCr : ℚ) * (1 - tdenv.margin))
    match destCands tdenv lsPenalty restrictTo route srcStation startCr
        (tdenv.getDestinations srcStation) with
    | .error e => .error e
    | .ok cs =>
      match routeCandsE tdenv lsPenalty restrictTo routes with
      | .error e => .error e
      | .ok cs2 => .ok (cs ++ cs2)

/-- All candidates examined by one `getBestHops` call, in order; the
`lsPenalty` multiplier is `tdenv.lsPenalty / 100` when the percentage is
non-zero (lines 491-494). -/
def examined (tdenv : TDEnv) (routes : List Route)
    (restrictTo : Option (List Place)) : Except String (List HopCand) :=
  routeCandsE tdenv (if tdenv.lsPenalty ≠ 0 then tdenv.lsPenalty / 100 else 0)
    restrictTo routes

/-- The `bestToDest` dictionary update of `getBestHops` (lines 544-558),
keyed by `dstStation.ID`, as an insertion-ordered association list: skip when
the stored candidate has a strictly higher total, or an equal total and a
distance no larger; otherwise replace (or insert a missing key). -/
def updateBest : List (Nat × HopCand) → HopCand → List (Nat × HopCand)
  | [], c => [(c.dstStation.ID, c)]
  | (k, e) :: m, c =>
    if k = c.dstStation.ID then
      let bestTradeScore := candTotal e
      let newTradeScore := candTotal c
      if newTradeScore < bestTradeScore then (k, e) :: m
      else if bestTradeScore = newTradeScore ∧ e.distLy ≤ c.distLy then (k, e) :: m
      else (k, c) :: m
    else (k, e) :: updateBest m c

/-- `TradeCalc.getBestHops(routes, restrictTo)` (lines 458-564): accumulate
the examined candidates into `bestToDest` and emit
`route.plus(dst, trade, jumps, score)` per surviving entry, in insertion
order (Python dict order).  A `ValueError` raised by `getBestTrade`
propagates. -/
def getBestHops (tdenv : TDEnv) (routes : List Route)
    (restrictTo : Option (List Place)) : Except String (List Route) :=
  match examined tdenv routes restrictTo with
  | .error e => .error e
  | .ok cs =>
    .ok ((cs.foldl updateBest []).map
      (fun p => p.2.route.plus p.2.dstStation p.2.trade p.2.via p.2.score))

/-! ### Specification-side definitions

Definitions below are not translations of source lines; they name the
quantities the theorems speak about: the gain/units/cost triple ordering both
solvers use, the space of candidate loads they search, and concrete inputs at
which the model is evaluated. -/

/-- Equality of the (gainCr, units, costCr) triple of two loads. -/
def sameGUC (a b : TradeLoad) : Prop :=
  a.gainCr = b.gainCr ∧ a.units = b.units ∧ a.costCr = b.costCr

instance (a b : TradeLoad) : Decidable (sameGUC a b) := by
  unfold sameGUC; infer_instance

/-- The strict "is a better load" order shared by `bruteForceFit`'s
replacement test and `fastFit`'s final selection: more gain, then fewer
units, then lower cost. -/
def Better (a b : TradeLoad) : Prop :=
  b.gainCr < a.gainCr ∨
    (a.gainCr = b.gainCr ∧
      (a.units < b.units ∨ (a.units = b.units ∧ a.costCr < b.costCr)))

instance (a b : TradeLoad) : Decidable (Better a b) := by
  unfold Better; infer_instance

/-- Concatenation of two loads (items appended, totals added). -/
def TradeLoad.comb (a b : TradeLoad) : TradeLoad :=
  ⟨a.items ++ b.items, a.gainCr + b.gainCr, a.costCr + b.costCr, a.units + b.units⟩

/-- The single-offer load taking `q` units of `it`. -/
def loadOf (it : Item) (q : Nat) : TradeLoad :=
  ⟨[(it, q)], (q : Int) * it.gainCr, q * it.costCr, q⟩

/-- The single-offer load as `bruteForceFit` writes it (factor order of the
source's products); same triple as `loadOf`. -/
def loadB (it : Item) (q : Nat) : TradeLoad :=
  ⟨[(it, q)], it.gainCr * (q : Int), it.costCr * q, q⟩

/-- The space of loads both fit algorithms search over: pick a subsequence of
the offer list and buy, in order, the `maxQtyFor` quantity of each offer
under the remaining credits and capacity. -/
def cands (maxUnits : Nat) : List Item → Nat → Nat → List TradeLoad
  | [], _, _ => []
  | it :: rest, cr, cap =>
    (let q := maxQtyFor maxUnits cr cap it
     if 0 < q then
       loadOf it q ::
         (cands maxUnits rest (cr - q * it.costCr) (cap - q)).map
           (fun c => (loadOf it q).comb c)
     else []) ++ cands maxUnits rest cr cap

/-- Gain-descending sortedness of an offer list (the adapter contract). -/
def sortedByGainDesc (items : List Item) : Prop :=
  items.Pairwise (fun a b => b.gainCr ≤ a.gainCr)

instance (items : List Item) : Decidable (sortedByGainDesc items) := by
  unfold sortedByGainDesc; infer_instance

/-- The replacement step of `fastFit`'s top-level loop (lines 378-385),
named for reasoning. -/
def selStep (bestLoad result : TradeLoad) : TradeLoad :=
  if bestLoad.units = 0 ∨ bestLoad.gainCr < result.gainCr ∨
      (result.gainCr = bestLoad.gainCr ∧
        (result.units < bestLoad.units ∨
          (result.units = bestLoad.units ∧ result.costCr < bestLoad.costCr))) then
    result
  else bestLoad

/-- The invariant the `bestToDest` accumulation of `getBestHops` maintains
after processing the prefix `P` of the examined candidates: keys are unique,
every processed candidate's key is present, and each entry is a processed
candidate that no processed candidate for the same key beats on
`(route.score + hop_score)` with the `ly` tie-break. -/
def MapOk (P : List HopCand) (m : List (Nat × HopCand)) : Prop :=
  (m.map Prod.fst).Nodup ∧
  (∀ c ∈ P, c.dstStation.ID ∈ m.map Prod.fst) ∧
  ∀ p ∈ m, p.2.dstStation.ID = p.1 ∧ p.2 ∈ P ∧
    ∀ c ∈ P, c.dstStation.ID = p.1 →
      candTotal c < candTotal p.2 ∨
        (candTotal c = candTotal p.2 ∧ p.2.distLy ≤ c.distLy)

/-! ### Concrete inputs used to evaluate the model -/

/-- Two offers identical except for the commodity id. -/
def exEq1 : Item := ⟨0, 5, 10, -1, 0, 0, 0⟩

/-- Second of the two identical-triple offers. -/
def exEq2 : Item := ⟨1, 5, 10, -1, 0, 0, 0⟩

/-- An offer whose resale loses 5 credits per unit. -/
def exNeg : Item := ⟨1, 1, -5, -1, 0, 0, 0⟩

/-- A high-stock-level offer with zero stock on record. -/
def exStock0 : Item := ⟨0, 1, 5, 0, 3, 0, 0⟩

/-- An offer with stock 2. -/
def exStock2 : Item := ⟨0, 1, 5, 2, 3, 0, 0⟩

/-- A profitable offer, cost 2. -/
def exPos1 : Item := ⟨0, 2, 3, -1, 0, 0, 0⟩

/-- A profitable offer, cost 1. -/
def exPos2 : Item := ⟨1, 1, 2, -1, 0, 0, 0⟩

/-- Cheapest offer of the pre-filter scenario: cost 10, gain 100. -/
def exOfferF : Item := ⟨10, 10, 100, -1, 0, 0, 0⟩

/-- Dominated offer of the pre-filter scenario: cost 20, gain 50. -/
def exOfferX : Item := ⟨11, 20, 50, -1, 0, 0, 0⟩

/-- The offer sold from the hub station. -/
def exHubItem : Item := ⟨1, 10, 100, -1, 0, 0, 0⟩

/-- A destination station with no outgoing trades. -/
def exStB : Station := ⟨2, 0, []⟩

/-- A hub station selling `exHubItem` towards station 2. -/
def exStHub : Station := ⟨1, 0, [(2, [exHubItem])]⟩

/-- A station selling the loss-making `exNeg` towards station 2. -/
def exStNeg : Station := ⟨1, 0, [(2, [exNeg])]⟩

/-- A station selling `exOfferF` and `exOfferX` towards station 2. -/
def exStC10 : Station := ⟨1, 0, [(2, [exOfferF, exOfferX])]⟩

/-- A destination candidate reaching `exStB`. -/
def exDest : Dest := ⟨5, exStB, 3, [7]⟩

/-- Environment with capacity 4 whose adapter always yields `exDest`. -/
def exEnvHub : TDEnv := ⟨1000, 0, 4, 0, [], 0, 0, false, 0, fun _ => [exDest]⟩

/-- Environment with capacity 1 and no destinations. -/
def exEnvCap1 : TDEnv := ⟨0, 0, 1, 0, [], 0, 0, false, 0, fun _ => []⟩

/-- The single-route seed starting at the hub. -/
def exRoute0 : Route := ⟨[exStHub], [], 1000, 0, [], 0⟩

/-- The load `getBestTrade` produces for the hub scenario. -/
def exHubLoad : TradeLoad := ⟨[(exHubItem, 4)], 400, 40, 4⟩

/-- The candidate `getBestHops` examines in the hub scenario. -/
def exHubCand : HopCand := ⟨exStB, exRoute0, exHubLoad, [7], 3, 400⟩

/-- A route with two hops worth of jumps, score 5. -/
def exRtA : Route := ⟨[], [], 0, 0, [[], []], 5⟩

/-- A route with one hop worth of jumps, score 5. -/
def exRtB : Route := ⟨[], [], 0, 0, [[]], 5⟩

/-! ### Order lemmas for `Better` and `sameGUC` -/

theorem better_irrefl (a : TradeLoad) : ¬ Better a a := by
  unfold Better; omega

theorem notBetter_trans {a b c : TradeLoad} (h1 : ¬ Better a b) (h2 : ¬ Better b c) :
    ¬ Better a c := by
  unfold Better at *; omega

theorem notBetter_of_better_right {a b c : TradeLoad} (h1 : Better a b) (h2 : ¬ Better a c) :
    ¬ Better b c := by
  unfold Better at *; omega

theorem notBetter_of_better_left {a b c : TradeLoad} (h1 : ¬ Better a b) (h2 : Better c b) :
    ¬ Better a c := by
  unfold Better at *; omega

theorem notBetter_antisymm {a b : TradeLoad} (h1 : ¬ Better a b) (h2 : ¬ Better b a) :
    sameGUC a b := by
  unfold Better sameGUC at *; omega

theorem sameGUC_refl (a : TradeLoad) : sameGUC a a := ⟨rfl, rfl, rfl⟩

theorem sameGUC_symm {a b : TradeLoad} (h : sameGUC a b) : sameGUC b a := by
  unfold sameGUC at *; omega

theorem sameGUC_trans {a b c : TradeLoad} (h1 : sameGUC a b) (h2 : sameGUC b c) :
    sameGUC a c := by
  unfold sameGUC at *; omega

theorem better_congr {a a' b b' : TradeLoad} (ha : sameGUC a a') (hb : sameGUC b b') :
    Better a b ↔ Better a' b' := by
  unfold Better sameGUC at *
  constructor <;> intro h <;> omega

theorem gain_le_of_notBetter {a b : TradeLoad} (h : ¬ Better a b) :
    a.gainCr ≤ b.gainCr := by
  unfold Better at h; omega

theorem comb_better_iff (a : TradeLoad) {x y : TradeLoad} :
    Better (a.comb x) (a.comb y) ↔ Better x y := by
  unfold Better TradeLoad.comb
  dsimp only
  constructor <;> intro h <;> omega

theorem sameGUC_comb {a a' b b' : TradeLoad} (ha : sameGUC a a') (hb : sameGUC b b') :
    sameGUC (a.comb b) (a'.comb b') := by
  unfold sameGUC TradeLoad.comb at *
  dsimp only
  omega

theorem sameGUC_comb_swap {a b : TradeLoad} :
    sameGUC ⟨a.items ++ b.items, a.gainCr + b.gainCr, a.costCr + b.costCr,
             a.units + b.units⟩ (b.comb a) := by
  unfold sameGUC TradeLoad.comb
  dsimp only
  omega

theorem sameGUC_comb_empty_right (a : TradeLoad) : sameGUC (a.comb emptyLoad) a := by
  unfold sameGUC TradeLoad.comb emptyLoad
  dsimp only
  omega

theorem sameGUC_loadB (it : Item) (q : Nat) : sameGUC (loadB it q) (loadOf it q) := by
  unfold sameGUC loadB loadOf
  dsimp only
  exact ⟨Int.mul_comm _ _, rfl, Nat.mul_comm _ _⟩

/-! ### Facts about `maxQtyFor` -/

theorem maxQtyFor_eq (mu cr cap : Nat) (it : Item) :
    maxQtyFor mu cr cap it =
      if it.stock < (↑(min mu (min cap (cr / it.costCr))) : Int) ∧ 0 < it.stock then
        min (min mu (min cap (cr / it.costCr))) it.stock.toNat
      else min mu (min cap (cr / it.costCr)) := by
  unfold maxQtyFor
  dsimp only
  split
  next h => split <;> simp
  next h => rfl

theorem maxQtyFor_le_mu (mu cr cap : Nat) (it : Item) : maxQtyFor mu cr cap it ≤ mu := by
  rw [maxQtyFor_eq]; split <;> omega

theorem maxQtyFor_le_cap (mu cr cap : Nat) (it : Item) : maxQtyFor mu cr cap it ≤ cap := by
  rw [maxQtyFor_eq]; split <;> omega

theorem maxQtyFor_le_div (mu cr cap : Nat) (it : Item) :
    maxQtyFor mu cr cap it ≤ cr / it.costCr := by
  rw [maxQtyFor_eq]; split <;> omega

theorem maxQtyFor_cost_le (mu cr cap : Nat) (it : Item) :
    maxQtyFor mu cr cap it * it.costCr ≤ cr :=
  le_trans (Nat.mul_le_mul_right _ (maxQtyFor_le_div mu cr cap it))
    (Nat.div_mul_le_self cr it.costCr)

theorem maxQtyFor_stock {it : Item} (h : 1 ≤ it.stock) (mu cr cap : Nat) :
    (maxQtyFor mu cr cap it : Int) ≤ it.stock := by
  rw [maxQtyFor_eq]; split <;> omega

theorem maxQtyFor_pos {mu cap : Nat} {it : Item} {cr : Nat} (hmu : 1 ≤ mu)
    (hcap : 1 ≤ cap) (hc : 1 ≤ it.costCr) (hcr : it.costCr ≤ cr) :
    1 ≤ maxQtyFor mu cr cap it := by
  have hd : 1 ≤ cr / it.costCr := (Nat.one_le_div_iff hc).2 hcr
  rw [maxQtyFor_eq]; split <;> omega

theorem maxQtyFor_cr_zero (mu cap : Nat) (it : Item) : maxQtyFor mu 0 cap it = 0 := by
  rw [maxQtyFor_eq]
  simp

theorem maxQtyFor_cap_zero (mu cr : Nat) (it : Item) : maxQtyFor mu cr 0 it = 0 := by
  rw [maxQtyFor_eq]
  simp

/-! ### The candidate space -/

theorem cands_cr_zero (mu : Nat) : ∀ (items : List Item) (cap : Nat),
    cands mu items 0 cap = [] := by
  intro items
  induction items with
  | nil => intro cap; rfl
  | cons it rest ih =>
    intro cap
    simp [cands, maxQtyFor_cr_zero, ih]

theorem cands_cap_zero (mu : Nat) : ∀ (items : List Item) (cr : Nat),
    cands mu items cr 0 = [] := by
  intro items
  induction items with
  | nil => intro cr; rfl
  | cons it rest ih =>
    intro cr
    simp [cands, maxQtyFor_cap_zero, ih]

theorem cands_gain_pos (mu : Nat) : ∀ (items : List Item), (∀ it ∈ items, 1 ≤ it.gainCr) →
    ∀ (cr cap : Nat), ∀ c ∈ cands mu items cr cap, 1 ≤ c.gainCr := by
  intro items
  induction items with
  | nil => intro _ cr cap c hc; simp [cands] at hc
  | cons it rest ih =>
    intro hg cr cap c hc
    have hgit : 1 ≤ it.gainCr := hg it (List.mem_cons_self _ _)
    have hgrest : ∀ i ∈ rest, 1 ≤ i.gainCr := fun i hi => hg i (List.mem_cons_of_mem _ hi)
    simp only [cands, List.mem_append] at hc
    rcases hc with hc | hc
    · by_cases hq : 0 < maxQtyFor mu cr cap it
      · rw [if_pos hq] at hc
        rcases List.mem_cons.1 hc with hc | hc
        · subst hc
          unfold loadOf
          dsimp only
          have : (1 : Int) * 1 ≤ (maxQtyFor mu cr cap it : Int) * it.gainCr :=
            mul_le_mul (by exact_mod_cast hq) hgit one_pos.le (by positivity)
          omega
        · obtain ⟨c', hc', rfl⟩ := List.mem_map.1 hc
          have h1 : 1 ≤ ((loadOf it (maxQtyFor mu cr cap it)).gainCr) := by
            unfold loadOf
            dsimp only
            have : (1 : Int) * 1 ≤ (maxQtyFor mu cr cap it : Int) * it.gainCr :=
              mul_le_mul (by exact_mod_cast hq) hgit one_pos.le (by positivity)
            omega
          have h2 := ih hgrest _ _ c' hc'
          unfold TradeLoad.comb
          dsimp only
          omega
      · rw [if_neg hq] at hc
        simp at hc
    · exact ih hgrest _ _ c hc

/-! ### bruteForceFit: the returned load is a `Better`-maximum of `cands` -/

theorem better_asymm {a b : TradeLoad} (h : Better a b) : ¬ Better b a := by
  unfold Better at *; omega

theorem cands_cons (mu : Nat) (it : Item) (rest : List Item) (cr cap : Nat) :
    cands mu (it :: rest) cr cap =
      (if 0 < maxQtyFor mu cr cap it then
        loadOf it (maxQtyFor mu cr cap it) ::
          (cands mu rest (cr - maxQtyFor mu cr cap it * it.costCr)
              (cap - maxQtyFor mu cr cap it)).map
            (fun c => (loadOf it (maxQtyFor mu cr cap it)).comb c)
      else []) ++ cands mu rest cr cap := rfl

theorem bruteStep_eq (l s b : TradeLoad) :
    bruteStep l s b = if Better (l.comb s) b then l.comb s else b := by
  unfold bruteStep Better TradeLoad.comb
  dsimp only
  split_ifs with h1 h2 h3 <;> first | rfl | (exfalso; omega)

theorem bruteStep_idem (l s b : TradeLoad) :
    bruteStep l s (bruteStep l s b) = bruteStep l s b := by
  by_cases h : Better (l.comb s) b
  · rw [bruteStep_eq l s b, if_pos h, bruteStep_eq, if_neg (better_irrefl _)]
  · rw [bruteStep_eq l s b, if_neg h, bruteStep_eq, if_neg h]

theorem range_succ_foldl_const {α : Type} (g : α → α) (hg : ∀ x, g (g x) = g x) :
    ∀ (m : Nat) (b : α), (List.range (m + 1)).foldl (fun x _ => g x) b = g b := by
  intro m
  induction m with
  | zero => intro b; simp [List.range_succ]
  | succ k ih =>
    intro b
    rw [List.range_succ, List.foldl_append, ih]
    simp only [List.foldl_cons, List.foldl_nil]
    rw [hg]

theorem bff_cons (mu : Nat) (it : Item) (rest : List Item) (cr cap : Nat) :
    bffFitCombos mu (it :: rest) cr cap =
      if 0 < maxQtyFor mu cr cap it then
        bruteStep (loadB it (maxQtyFor mu cr cap it))
          (bffFitCombos mu rest (cr - it.costCr * maxQtyFor mu cr cap it)
            (cap - maxQtyFor mu cr cap it))
          (bffFitCombos mu rest cr cap)
      else bffFitCombos mu rest cr cap := by
  show (let bestLoad := bffFitCombos mu rest cr cap
        let maxQty := maxQtyFor mu cr cap it
        if 0 < maxQty then
          let load : TradeLoad :=
            ⟨[(it, maxQty)], it.gainCr * (maxQty : Int), it.costCr * maxQty, maxQty⟩
          let subLoad := bffFitCombos mu rest (cr - load.costCr) (cap - load.units)
          (List.range maxQty).foldl (fun bestLoad _ => bruteStep load subLoad bestLoad) bestLoad
        else bestLoad) = _
  dsimp only
  by_cases hq : 0 < maxQtyFor mu cr cap it
  · rw [if_pos hq, if_pos hq]
    obtain ⟨m, hm⟩ : ∃ m, maxQtyFor mu cr cap it = m + 1 :=
      ⟨maxQtyFor mu cr cap it - 1, by omega⟩
    rw [hm]
    rw [range_succ_foldl_const _ (fun x => bruteStep_idem _ _ x) m]
    rfl
  · rw [if_neg hq, if_neg hq]

theorem bff_spec (mu : Nat) : ∀ (items : List Item) (cr cap : Nat),
    (¬ Better emptyLoad (bffFitCombos mu items cr cap)) ∧
    (sameGUC (bffFitCombos mu items cr cap) emptyLoad ∨
      ∃ c ∈ cands mu items cr cap, sameGUC (bffFitCombos mu items cr cap) c) ∧
    (∀ c ∈ cands mu items cr cap, ¬ Better c (bffFitCombos mu items cr cap)) := by
  intro items
  induction items with
  | nil =>
    intro cr cap
    refine ⟨better_irrefl _, Or.inl (sameGUC_refl _), ?_⟩
    intro c hc
    simp [cands] at hc
  | cons it rest ih =>
    intro cr cap
    rw [bff_cons, cands_cons]
    by_cases hq : 0 < maxQtyFor mu cr cap it
    · rw [if_pos hq, if_pos hq]
      obtain ⟨ihe0, ihm0, iha0⟩ := ih cr cap
      obtain ⟨ihe1, ihm1, iha1⟩ := ih (cr - it.costCr * maxQtyFor mu cr cap it)
        (cap - maxQtyFor mu cr cap it)
      have hcomm : cr - maxQtyFor mu cr cap it * it.costCr =
          cr - it.costCr * maxQtyFor mu cr cap it := by rw [Nat.mul_comm]
      rw [hcomm]
      set q := maxQtyFor mu cr cap it with hqd
      set b0 := bffFitCombos mu rest cr cap with hb0
      set sub := bffFitCombos mu rest (cr - it.costCr * q) (cap - q) with hsub
      set comb := (loadB it q).comb sub with hcomb
      have hcombG : sameGUC comb ((loadOf it q).comb sub) :=
        sameGUC_comb (sameGUC_loadB it q) (sameGUC_refl sub)
      rw [bruteStep_eq]
      by_cases hbet : Better comb b0
      · rw [if_pos hbet]
        have hR0 : ¬ Better b0 comb := better_asymm hbet
        have hRc : ¬ Better comb comb := better_irrefl _
        refine ⟨notBetter_of_better_left ihe0 hbet, ?_, ?_⟩
        · rcases ihm1 with hse | ⟨c', hc', hs⟩
          · refine Or.inr ⟨loadOf it q, List.mem_append_left _ (List.mem_cons_self _ _), ?_⟩
            exact sameGUC_trans hcombG
              (sameGUC_trans (sameGUC_comb (sameGUC_refl _) hse)
                (sameGUC_comb_empty_right _))
          · refine Or.inr ⟨(loadOf it q).comb c',
              List.mem_append_left _
                (List.mem_cons_of_mem _ (List.mem_map.2 ⟨c', hc', rfl⟩)), ?_⟩
            exact sameGUC_trans hcombG (sameGUC_comb (sameGUC_refl _) hs)
        · intro c hc
          rcases List.mem_append.1 hc with hc | hc
          · rcases List.mem_cons.1 hc with rfl | hc
            · have h1 : ¬ Better ((loadOf it q).comb emptyLoad) ((loadOf it q).comb sub) :=
                fun h => ihe1 ((comb_better_iff _).1 h)
              exact fun h => h1 ((better_congr
                (sameGUC_symm (sameGUC_comb_empty_right (loadOf it q))) hcombG).1 h)
            · obtain ⟨c', hc', rfl⟩ := List.mem_map.1 hc
              have h1 : ¬ Better ((loadOf it q).comb c') ((loadOf it q).comb sub) :=
                fun h => iha1 c' hc' ((comb_better_iff _).1 h)
              exact fun h => h1 ((better_congr (sameGUC_refl _) hcombG).1 h)
          · exact notBetter_of_better_left (iha0 c hc) hbet
      · rw [if_neg hbet]
        refine ⟨ihe0, ?_, ?_⟩
        · rcases ihm0 with hse | ⟨c', hc', hs⟩
          · exact Or.inl hse
          · exact Or.inr ⟨c', List.mem_append_right _ hc', hs⟩
        · intro c hc
          rcases List.mem_append.1 hc with hc | hc
          · rcases List.mem_cons.1 hc with rfl | hc
            · have h1 : ¬ Better ((loadOf it q).comb emptyLoad) ((loadOf it q).comb sub) :=
                fun h => ihe1 ((comb_better_iff _).1 h)
              have h2 : ¬ Better (loadOf it q) comb := fun h => h1 ((better_congr
                (sameGUC_symm (sameGUC_comb_empty_right (loadOf it q))) hcombG).1 h)
              exact notBetter_trans h2 hbet
            · obtain ⟨c', hc', rfl⟩ := List.mem_map.1 hc
              have h1 : ¬ Better ((loadOf it q).comb c') ((loadOf it q).comb sub) :=
                fun h => iha1 c' hc' ((comb_better_iff _).1 h)
              have h2 : ¬ Better ((loadOf it q).comb c') comb :=
                fun h => h1 ((better_congr (sameGUC_refl _) hcombG).1 h)
              exact notBetter_trans h2 hbet
          · exact iha0 c hc
    · rw [if_neg hq, if_neg hq, List.nil_append]
      exact ih cr cap

/-! ### fastFit: its yields live in `cands` and attain the maximal gain -/

theorem ff_cons (mu : Nat) (it : Item) (rest : List Item) (cr cap : Nat) :
    ffFitCombos mu (it :: rest) cr cap =
      (if 0 < maxQtyFor mu cr cap it then
        if 0 < cr - maxQtyFor mu cr cap it * it.costCr ∧
            0 < cap - maxQtyFor mu cr cap it then
          ffCollectGo (loadOf it (maxQtyFor mu cr cap it)) (-1)
            (ffFitCombos mu rest (cr - maxQtyFor mu cr cap it * it.costCr)
              (cap - maxQtyFor mu cr cap it))
        else [loadOf it (maxQtyFor mu cr cap it)]
      else []) ++ ffFitCombos mu rest cr cap := rfl

theorem ffCollectGo_mem (load : TradeLoad) : ∀ (subs : List TradeLoad) (bg : Int),
    ∀ z ∈ ffCollectGo load bg subs, z = load ∨
      ∃ y ∈ subs, z = ⟨y.items ++ load.items, y.gainCr + load.gainCr,
        y.costCr + load.costCr, y.units + load.units⟩ := by
  intro subs
  induction subs with
  | nil =>
    intro bg z hz
    unfold ffCollectGo at hz
    split at hz
    · simp at hz
      exact Or.inl hz
    · simp at hz
  | cons y subs ih =>
    intro bg z hz
    unfold ffCollectGo at hz
    split at hz
    · rcases List.mem_cons.1 hz with rfl | hz
      · exact Or.inr ⟨y, List.mem_cons_self _ _, rfl⟩
      · rcases ih _ z hz with h | ⟨y', hy', rfl⟩
        · exact Or.inl h
        · exact Or.inr ⟨y', List.mem_cons_of_mem _ hy', rfl⟩
    · rcases ih _ z hz with h | ⟨y', hy', rfl⟩
      · exact Or.inl h
      · exact Or.inr ⟨y', List.mem_cons_of_mem _ hy', rfl⟩

theorem ffCollectGo_nil_imp (load : TradeLoad) : ∀ (subs : List TradeLoad) (bg : Int),
    ffCollectGo load bg subs = [] → 0 ≤ bg := by
  intro subs
  induction subs with
  | nil =>
    intro bg h
    unfold ffCollectGo at h
    split at h
    · simp at h
    · omega
  | cons y subs ih =>
    intro bg h
    unfold ffCollectGo at h
    split at h
    · simp at h
    · exact ih _ h

theorem ffCollectGo_accept (load : TradeLoad) : ∀ (subs : List TradeLoad) (bg : Int)
    (y : TradeLoad), y ∈ subs → 0 < y.gainCr → (∀ z ∈ subs, z.gainCr ≤ y.gainCr) →
    bg ≤ y.gainCr →
    (⟨y.items ++ load.items, y.gainCr + load.gainCr, y.costCr + load.costCr,
      y.units + load.units⟩ : TradeLoad) ∈ ffCollectGo load bg subs := by
  intro subs
  induction subs with
  | nil => intro bg y hy; simp at hy
  | cons z subs ih =>
    intro bg y hy hpos hmax hbg
    unfold ffCollectGo
    rcases List.mem_cons.1 hy with rfl | hy
    · rw [if_pos ⟨hpos, hbg⟩]
      exact List.mem_cons_self _ _
    · by_cases hz : 0 < z.gainCr ∧ bg ≤ z.gainCr
      · rw [if_pos hz]
        refine List.mem_cons_of_mem _ (ih _ y hy hpos
          (fun w hw => hmax w (List.mem_cons_of_mem _ hw))
          (hmax z (List.mem_cons_self _ _)))
      · rw [if_neg hz]
        exact ih _ y hy hpos (fun w hw => hmax w (List.mem_cons_of_mem _ hw)) hbg

theorem ff_sub_cands (mu : Nat) : ∀ (items : List Item) (cr cap : Nat),
    (∀ y ∈ ffFitCombos mu items cr cap,
      (∃ c ∈ cands mu items cr cap, sameGUC y c) ∧ 0 < y.units) ∧
    (cands mu items cr cap = [] → ffFitCombos mu items cr cap = []) := by
  intro items
  induction items with
  | nil =>
    intro cr cap
    refine ⟨?_, fun _ => rfl⟩
    intro y hy
    simp [ffFitCombos] at hy
  | cons it rest ih =>
    intro cr cap
    rw [ff_cons, cands_cons]
    by_cases hq : 0 < maxQtyFor mu cr cap it
    · rw [if_pos hq, if_pos hq]
      set q := maxQtyFor mu cr cap it with hqd
      have hloadu : 0 < (loadOf it q).units := hq
      constructor
      · intro y hy
        rcases List.mem_append.1 hy with hy | hy
        · by_cases hcc : 0 < cr - q * it.costCr ∧ 0 < cap - q
          · rw [if_pos hcc] at hy
            rcases ffCollectGo_mem _ _ _ y hy with rfl | ⟨y', hy', rfl⟩
            · exact ⟨⟨loadOf it q,
                List.mem_append_left _ (List.mem_cons_self _ _), sameGUC_refl _⟩, hq⟩
            · obtain ⟨⟨c', hc', hs⟩, hu⟩ := (ih _ _).1 y' hy'
              refine ⟨⟨(loadOf it q).comb c',
                List.mem_append_left _
                  (List.mem_cons_of_mem _ (List.mem_map.2 ⟨c', hc', rfl⟩)), ?_⟩, ?_⟩
              · exact sameGUC_trans sameGUC_comb_swap
                  (sameGUC_comb (sameGUC_refl _) hs)
              · dsimp only
                omega
          · rw [if_neg hcc] at hy
            simp only [List.mem_singleton] at hy
            subst hy
            exact ⟨⟨loadOf it q,
              List.mem_append_left _ (List.mem_cons_self _ _), sameGUC_refl _⟩, hq⟩
        · obtain ⟨⟨c', hc', hs⟩, hu⟩ := (ih cr cap).1 y hy
          exact ⟨⟨c', List.mem_append_right _ hc', hs⟩, hu⟩
      · intro hnil
        simp at hnil
    · rw [if_neg hq, if_neg hq, List.nil_append, List.nil_append]
      exact ih cr cap

theorem ff_max_attained (mu : Nat) : ∀ (items : List Item),
    (∀ it ∈ items, 1 ≤ it.gainCr) → ∀ (cr cap : Nat),
    ∀ c ∈ cands mu items cr cap,
    (∀ c' ∈ cands mu items cr cap, c'.gainCr ≤ c.gainCr) →
    ∃ y ∈ ffFitCombos mu items cr cap, sameGUC y c := by
  intro items
  induction items with
  | nil =>
    intro _ cr cap c hc
    simp [cands] at hc
  | cons it rest ih =>
    intro hg cr cap c hc hmax
    have hgrest : ∀ i ∈ rest, 1 ≤ i.gainCr := fun i hi => hg i (List.mem_cons_of_mem _ hi)
    rw [cands_cons] at hc hmax
    rw [ff_cons]
    by_cases hq : 0 < maxQtyFor mu cr cap it
    · rw [if_pos hq] at hc hmax ⊢
      set q := maxQtyFor mu cr cap it with hqd
      set crL := cr - q * it.costCr with hcrL
      set capL := cap - q with hcapL
      rcases List.mem_append.1 hc with hch | hct
      · rcases List.mem_cons.1 hch with rfl | hch
        · have hsub_nil : cands mu rest crL capL = [] := by
            by_contra hne
            obtain ⟨c0, hc0⟩ := List.exists_mem_of_ne_nil _ hne
            have h1 : 1 ≤ c0.gainCr := cands_gain_pos mu rest hgrest crL capL c0 hc0
            have h2 := hmax ((loadOf it q).comb c0)
              (List.mem_append_left _
                (List.mem_cons_of_mem _ (List.mem_map.2 ⟨c0, hc0, rfl⟩)))
            unfold TradeLoad.comb at h2
            dsimp only at h2
            omega
          by_cases hcc : 0 < crL ∧ 0 < capL
          · rw [if_pos hcc]
            rw [(ff_sub_cands mu rest crL capL).2 hsub_nil]
            refine ⟨loadOf it q, ?_, sameGUC_refl _⟩
            refine List.mem_append_left _ ?_
            unfold ffCollectGo
            rw [if_pos (by norm_num : (-1 : Int) < 0)]
            exact List.mem_singleton.2 rfl
          · rw [if_neg hcc]
            exact ⟨loadOf it q,
              List.mem_append_left _ (List.mem_cons_self _ _), sameGUC_refl _⟩
        · obtain ⟨c', hc', rfl⟩ := List.mem_map.1 hch
          have hccpos : 0 < crL ∧ 0 < capL := by
            constructor
            · rcases Nat.eq_zero_or_pos crL with h0 | h1
              · rw [h0, cands_cr_zero] at hc'
                simp at hc'
              · exact h1
            · rcases Nat.eq_zero_or_pos capL with h0 | h1
              · rw [h0, cands_cap_zero] at hc'
                simp at hc'
              · exact h1
          rw [if_pos hccpos]
          have hmaxsub : ∀ c'' ∈ cands mu rest crL capL, c''.gainCr ≤ c'.gainCr := by
            intro c'' h''
            have := hmax ((loadOf it q).comb c'')
              (List.mem_append_left _
                (List.mem_cons_of_mem _ (List.mem_map.2 ⟨c'', h'', rfl⟩)))
            unfold TradeLoad.comb at this
            dsimp only at this
            omega
          obtain ⟨ys, hys, hsys⟩ := ih hgrest crL capL c' hc' hmaxsub
          have hypos : 0 < ys.gainCr := by
            have h1 : 1 ≤ c'.gainCr := cands_gain_pos mu rest hgrest _ _ c' hc'
            unfold sameGUC at hsys
            omega
          have hyall : ∀ z ∈ ffFitCombos mu rest crL capL, z.gainCr ≤ ys.gainCr := by
            intro z hz
            obtain ⟨⟨cz, hcz, hsz⟩, _⟩ := (ff_sub_cands mu rest crL capL).1 z hz
            have := hmaxsub cz hcz
            unfold sameGUC at hsz hsys
            omega
          have hmem := ffCollectGo_accept (loadOf it q) _ (-1) ys hys hypos hyall
            (by omega)
          refine ⟨_, List.mem_append_left _ hmem, ?_⟩
          exact sameGUC_trans sameGUC_comb_swap (sameGUC_comb (sameGUC_refl _) hsys)
      · have hmax' : ∀ c' ∈ cands mu rest cr cap, c'.gainCr ≤ c.gainCr :=
          fun c' h' => hmax c' (List.mem_append_right _ h')
        obtain ⟨y, hy, hs⟩ := ih hgrest cr cap c hct hmax'
        exact ⟨y, List.mem_append_right _ hy, hs⟩
    · rw [if_neg hq] at hc hmax ⊢
      simp only [List.nil_append] at hc hmax ⊢
      exact ih hgrest cr cap c hc hmax

/-! ### fastFit's final selection -/

theorem fastFit_eq_fold (items : List Item) (cr cap mu : Nat) :
    fastFit items cr cap mu = (ffFitCombos mu items cr cap).foldl selStep emptyLoad := rfl

theorem selStep_eq {b : TradeLoad} (hb : 0 < b.units) (y : TradeLoad) :
    selStep b y = if Better y b then y else b := by
  unfold selStep Better
  split_ifs with h1 h2 <;> first | rfl | (exfalso; omega)

theorem selStep_empty (y : TradeLoad) : selStep emptyLoad y = y := by
  simp [selStep, emptyLoad]

theorem foldl_selStep_spec : ∀ (Y : List TradeLoad) (b : TradeLoad), 0 < b.units →
    (∀ y ∈ Y, 0 < y.units) →
    (Y.foldl selStep b = b ∨ Y.foldl selStep b ∈ Y) ∧
    (¬ Better b (Y.foldl selStep b)) ∧ (∀ y ∈ Y, ¬ Better y (Y.foldl selStep b)) := by
  intro Y
  induction Y with
  | nil =>
    intro b hb _
    exact ⟨Or.inl rfl, better_irrefl _, by simp⟩
  | cons y Y ih =>
    intro b hb hYu
    have hyu : 0 < y.units := hYu y (List.mem_cons_self _ _)
    have hY' : ∀ z ∈ Y, 0 < z.units := fun z hz => hYu z (List.mem_cons_of_mem _ hz)
    simp only [List.foldl_cons]
    rw [selStep_eq hb y]
    by_cases hbet : Better y b
    · rw [if_pos hbet]
      obtain ⟨hmem, hself, hall⟩ := ih y hyu hY'
      refine ⟨?_, ?_, ?_⟩
      · rcases hmem with h | h
        · exact Or.inr (by rw [h]; exact List.mem_cons_self _ _)
        · exact Or.inr (List.mem_cons_of_mem _ h)
      · exact notBetter_of_better_right hbet hself
      · intro z hz
        rcases List.mem_cons.1 hz with rfl | hz
        · exact hself
        · exact hall z hz
    · rw [if_neg hbet]
      obtain ⟨hmem, hself, hall⟩ := ih b hb hY'
      refine ⟨?_, hself, ?_⟩
      · rcases hmem with h | h
        · exact Or.inl h
        · exact Or.inr (List.mem_cons_of_mem _ h)
      · intro z hz
        rcases List.mem_cons.1 hz with rfl | hz
        · exact notBetter_trans hbet hself
        · exact hall z hz

theorem fastFit_spec (items : List Item) (cr cap mu : Nat) :
    (ffFitCombos mu items cr cap = [] ∧ fastFit items cr cap mu = emptyLoad) ∨
    (fastFit items cr cap mu ∈ ffFitCombos mu items cr cap ∧
      ∀ y ∈ ffFitCombos mu items cr cap, ¬ Better y (fastFit items cr cap mu)) := by
  rw [fastFit_eq_fold]
  rcases hY : ffFitCombos mu items cr cap with _ | ⟨y, Y⟩
  · exact Or.inl ⟨rfl, rfl⟩
  · right
    have hyu : ∀ z ∈ y :: Y, 0 < z.units := by
      intro z hz
      exact ((ff_sub_cands mu items cr cap).1 z (hY ▸ hz)).2
    simp only [List.foldl_cons, selStep_empty]
    obtain ⟨hmem, hself, hall⟩ := foldl_selStep_spec Y y (hyu y (List.mem_cons_self _ _))
      (fun z hz => hyu z (List.mem_cons_of_mem _ hz))
    refine ⟨?_, ?_⟩
    · rcases hmem with h | h
      · rw [h]
        exact List.mem_cons_self _ _
      · exact List.mem_cons_of_mem _ h
    · intro z hz
      rcases List.mem_cons.1 hz with rfl | hz
      · exact hself
      · exact hall z hz

theorem exists_lexmax : ∀ (l : List TradeLoad), l ≠ [] →
    ∃ c ∈ l, ∀ c' ∈ l, ¬ Better c' c := by
  intro l
  induction l with
  | nil => intro h; exact absurd rfl h
  | cons a l ih =>
    intro _
    rcases l with _ | ⟨b, l'⟩
    · refine ⟨a, List.mem_cons_self _ _, ?_⟩
      intro c' hc'
      rcases List.mem_cons.1 hc' with rfl | h
      · exact better_irrefl _
      · simp at h
    · obtain ⟨c, hc, hmax⟩ := ih (by simp)
      by_cases hab : Better a c
      · refine ⟨a, List.mem_cons_self _ _, ?_⟩
        intro c' hc'
        rcases List.mem_cons.1 hc' with rfl | hc'
        · exact better_irrefl _
        · exact notBetter_of_better_left (hmax c' hc') hab
      · refine ⟨c, List.mem_cons_of_mem _ hc, ?_⟩
        intro c' hc'
        rcases List.mem_cons.1 hc' with rfl | hc'
        · exact hab
        · exact hmax c' hc'

/-- Under positive per-unit gains, `fastFit` and `bruteForceFit` agree on
gain, units and cost: both return a `Better`-maximum of the same candidate
space. -/
theorem fastFit_guc_brute (items : List Item) (cr cap mu : Nat)
    (hg : ∀ it ∈ items, 1 ≤ it.gainCr) :
    sameGUC (fastFit items cr cap mu) (bruteForceFit items cr cap mu) := by
  obtain ⟨bffE, bffM, bffA⟩ := bff_spec mu items cr cap
  show sameGUC _ (bffFitCombos mu items cr cap)
  by_cases hC : cands mu items cr cap = []
  · have hff : ffFitCombos mu items cr cap = [] := (ff_sub_cands mu items cr cap).2 hC
    have hfast : fastFit items cr cap mu = emptyLoad := by
      rcases fastFit_spec items cr cap mu with ⟨_, h⟩ | ⟨hmem, _⟩
      · exact h
      · rw [hff] at hmem
        simp at hmem
    rw [hfast]
    rcases bffM with h | ⟨c, hc, _⟩
    · exact sameGUC_symm h
    · rw [hC] at hc
      simp at hc
  · obtain ⟨cstar, hcs, hcmax⟩ := exists_lexmax _ hC
    have hgainmax : ∀ c' ∈ cands mu items cr cap, c'.gainCr ≤ cstar.gainCr :=
      fun c' h' => gain_le_of_notBetter (hcmax c' h')
    obtain ⟨ys, hys, hsys⟩ := ff_max_attained mu items hg cr cap cstar hcs hgainmax
    have hYne : ffFitCombos mu items cr cap ≠ [] := fun h => by
      rw [h] at hys
      simp at hys
    rcases fastFit_spec items cr cap mu with ⟨h, _⟩ | ⟨hmem, hall⟩
    · exact absurd h hYne
    have h1 : ¬ Better cstar (fastFit items cr cap mu) := by
      have hys' := hall ys hys
      exact fun h => hys' ((better_congr (sameGUC_symm hsys) (sameGUC_refl _)).1 h)
    have h2 : ¬ Better (fastFit items cr cap mu) cstar := by
      obtain ⟨⟨cF, hcF, hsF⟩, _⟩ := (ff_sub_cands mu items cr cap).1 _ hmem
      have hcF' := hcmax cF hcF
      exact fun h => hcF' ((better_congr hsF (sameGUC_refl _)).1 h)
    have hfastG : sameGUC (fastFit items cr cap mu) cstar := notBetter_antisymm h2 h1
    have h3 : ¬ Better cstar (bffFitCombos mu items cr cap) := bffA cstar hcs
    have h4 : ¬ Better (bffFitCombos mu items cr cap) cstar := by
      rcases bffM with hse | ⟨cB, hcB, hsB⟩
      · exfalso
        have hg1 : 1 ≤ cstar.gainCr := cands_gain_pos mu items hg cr cap cstar hcs
        have hz : (bffFitCombos mu items cr cap).gainCr = 0 := hse.1
        exact h3 (Or.inl (by omega))
      · have hcB' := hcmax cB hcB
        exact fun h => hcB' ((better_congr hsB (sameGUC_refl _)).1 h)
    exact sameGUC_trans hfastG (sameGUC_symm (notBetter_antisymm h4 h3))

/-! ### Resource bounds, stock caps and gain signs of the solvers -/

theorem ff_bounds (mu : Nat) : ∀ (items : List Item) (cr cap : Nat),
    ∀ y ∈ ffFitCombos mu items cr cap,
      y.costCr ≤ cr ∧ y.units ≤ cap ∧ ∀ p ∈ y.items, p.2 ≤ mu := by
  intro items
  induction items with
  | nil =>
    intro cr cap y hy
    simp [ffFitCombos] at hy
  | cons it rest ih =>
    intro cr cap y hy
    rw [ff_cons] at hy
    set q := maxQtyFor mu cr cap it with hqd
    have hqcost : q * it.costCr ≤ cr := maxQtyFor_cost_le mu cr cap it
    have hqcap : q ≤ cap := maxQtyFor_le_cap mu cr cap it
    have hqmu : q ≤ mu := maxQtyFor_le_mu mu cr cap it
    have hload : (loadOf it q).costCr ≤ cr ∧ (loadOf it q).units ≤ cap ∧
        ∀ p ∈ (loadOf it q).items, p.2 ≤ mu := by
      refine ⟨hqcost, hqcap, ?_⟩
      intro p hp
      rcases List.mem_singleton.1 hp with rfl
      exact hqmu
    rcases List.mem_append.1 hy with hy | hy
    · by_cases hq : 0 < q
      case neg =>
        rw [if_neg hq] at hy
        simp at hy
      rw [if_pos hq] at hy
      by_cases hcc : 0 < cr - q * it.costCr ∧ 0 < cap - q
      · rw [if_pos hcc] at hy
        rcases ffCollectGo_mem _ _ _ y hy with rfl | ⟨y', hy', rfl⟩
        · exact hload
        · obtain ⟨h1, h2, h3⟩ := ih (cr - q * it.costCr) (cap - q) y' hy'
          refine ⟨?_, ?_, ?_⟩
          · show y'.costCr + (loadOf it q).costCr ≤ cr
            unfold loadOf
            dsimp only
            omega
          · show y'.units + (loadOf it q).units ≤ cap
            unfold loadOf
            dsimp only
            omega
          · intro p hp
            rcases List.mem_append.1 hp with hp | hp
            · exact h3 p hp
            · rcases List.mem_singleton.1 hp with rfl
              exact hqmu
      · rw [if_neg hcc] at hy
        rcases List.mem_singleton.1 hy with rfl
        exact hload
    · exact ih cr cap y hy

theorem fastFit_bounds (items : List Item) (cr cap mu : Nat) :
    (fastFit items cr cap mu).costCr ≤ cr ∧ (fastFit items cr cap mu).units ≤ cap ∧
    ∀ p ∈ (fastFit items cr cap mu).items, p.2 ≤ mu := by
  rcases fastFit_spec items cr cap mu with ⟨_, h⟩ | ⟨hmem, _⟩
  · rw [h]
    exact ⟨Nat.zero_le _, Nat.zero_le _, by simp [emptyLoad]⟩
  · exact ff_bounds mu items cr cap _ hmem

theorem ff_stock (mu : Nat) : ∀ (items : List Item) (cr cap : Nat),
    ∀ y ∈ ffFitCombos mu items cr cap, ∀ p ∈ y.items,
      1 ≤ p.1.stock → (p.2 : Int) ≤ p.1.stock := by
  intro items
  induction items with
  | nil =>
    intro cr cap y hy
    simp [ffFitCombos] at hy
  | cons it rest ih =>
    intro cr cap y hy
    rw [ff_cons] at hy
    set q := maxQtyFor mu cr cap it with hqd
    have hload : ∀ p ∈ (loadOf it q).items, 1 ≤ p.1.stock → (p.2 : Int) ≤ p.1.stock := by
      intro p hp hs
      rcases List.mem_singleton.1 hp with rfl
      exact maxQtyFor_stock hs mu cr cap
    rcases List.mem_append.1 hy with hy | hy
    · by_cases hq : 0 < q
      case neg =>
        rw [if_neg hq] at hy
        simp at hy
      rw [if_pos hq] at hy
      by_cases hcc : 0 < cr - q * it.costCr ∧ 0 < cap - q
      · rw [if_pos hcc] at hy
        rcases ffCollectGo_mem _ _ _ y hy with rfl | ⟨y', hy', rfl⟩
        · exact hload
        · intro p hp
          rcases List.mem_append.1 hp with hp | hp
          · exact ih (cr - q * it.costCr) (cap - q) y' hy' p hp
          · exact hload p hp
      · rw [if_neg hcc] at hy
        rcases List.mem_singleton.1 hy with rfl
        exact hload
    · exact ih cr cap y hy

theorem fastFit_stock (items : List Item) (cr cap mu : Nat) :
    ∀ p ∈ (fastFit items cr cap mu).items, 1 ≤ p.1.stock → (p.2 : Int) ≤ p.1.stock := by
  rcases fastFit_spec items cr cap mu with ⟨_, h⟩ | ⟨hmem, _⟩
  · rw [h]
    simp [emptyLoad]
  · exact ff_stock mu items cr cap _ hmem

theorem bff_stock (mu : Nat) : ∀ (items : List Item) (cr cap : Nat),
    ∀ p ∈ (bffFitCombos mu items cr cap).items,
      1 ≤ p.1.stock → (p.2 : Int) ≤ p.1.stock := by
  intro items
  induction items with
  | nil =>
    intro cr cap p hp
    simp [bffFitCombos, emptyLoad] at hp
  | cons it rest ih =>
    intro cr cap p hp
    rw [bff_cons] at hp
    by_cases hq : 0 < maxQtyFor mu cr cap it
    case neg =>
      rw [if_neg hq] at hp
      exact ih cr cap p hp
    rw [if_pos hq, bruteStep_eq] at hp
    split at hp
    · rcases List.mem_append.1 hp with hp | hp
      · rcases List.mem_singleton.1 hp with rfl
        intro hs
        exact maxQtyFor_stock hs mu cr cap
      · exact ih _ _ p hp
    · exact ih cr cap p hp

theorem bruteForceFit_stock (items : List Item) (cr cap mu : Nat) :
    ∀ p ∈ (bruteForceFit items cr cap mu).items,
      1 ≤ p.1.stock → (p.2 : Int) ≤ p.1.stock :=
  bff_stock mu items cr cap

theorem ff_gain_nonneg (mu : Nat) : ∀ (items : List Item),
    (∀ it ∈ items, 0 ≤ it.gainCr) → ∀ (cr cap : Nat),
    ∀ y ∈ ffFitCombos mu items cr cap, 0 ≤ y.gainCr := by
  intro items
  induction items with
  | nil =>
    intro _ cr cap y hy
    simp [ffFitCombos] at hy
  | cons it rest ih =>
    intro hg cr cap y hy
    have hgit : 0 ≤ it.gainCr := hg it (List.mem_cons_self _ _)
    have hgrest : ∀ i ∈ rest, 0 ≤ i.gainCr := fun i hi => hg i (List.mem_cons_of_mem _ hi)
    rw [ff_cons] at hy
    set q := maxQtyFor mu cr cap it with hqd
    have hload : 0 ≤ (loadOf it q).gainCr := by
      unfold loadOf
      dsimp only
      positivity
    rcases List.mem_append.1 hy with hy | hy
    · by_cases hq : 0 < q
      case neg =>
        rw [if_neg hq] at hy
        simp at hy
      rw [if_pos hq] at hy
      by_cases hcc : 0 < cr - q * it.costCr ∧ 0 < cap - q
      · rw [if_pos hcc] at hy
        rcases ffCollectGo_mem _ _ _ y hy with rfl | ⟨y', hy', rfl⟩
        · exact hload
        · have h1 := ih hgrest (cr - q * it.costCr) (cap - q) y' hy'
          dsimp only
          omega
      · rw [if_neg hcc] at hy
        rcases List.mem_singleton.1 hy with rfl
        exact hload
    · exact ih hgrest cr cap y hy

theorem fastFit_gain_nonneg (items : List Item) (cr cap mu : Nat)
    (hg : ∀ it ∈ items, 0 ≤ it.gainCr) : 0 ≤ (fastFit items cr cap mu).gainCr := by
  rcases fastFit_spec items cr cap mu with ⟨_, h⟩ | ⟨hmem, _⟩
  · rw [h]
    exact le_refl _
  · exact ff_gain_nonneg mu items hg cr cap _ hmem

theorem fastFit_units_pos (it : Item) (rest : List Item) (cr cap mu : Nat)
    (hc : 1 ≤ it.costCr) (hcr : it.costCr ≤ cr) (hcap : 1 ≤ cap) (hmu : 1 ≤ mu) :
    0 < (fastFit (it :: rest) cr cap mu).units := by
  have hq : 0 < maxQtyFor mu cr cap it := maxQtyFor_pos hmu hcap hc hcr
  have hne : ffFitCombos mu (it :: rest) cr cap ≠ [] := by
    rw [ff_cons, if_pos hq]
    intro h
    rcases List.append_eq_nil.1 h with ⟨h1, _⟩
    by_cases hcc : 0 < cr - maxQtyFor mu cr cap it * it.costCr ∧
        0 < cap - maxQtyFor mu cr cap it
    · rw [if_pos hcc] at h1
      have := ffCollectGo_nil_imp _ _ _ h1
      omega
    · rw [if_neg hcc] at h1
      simp at h1
  rcases fastFit_spec (it :: rest) cr cap mu with ⟨h, _⟩ | ⟨hmem, _⟩
  · exact absurd h hne
  · exact ((ff_sub_cands mu _ cr cap).1 _ hmem).2

/-! ### The entry-point pre-filter and getBestTrade case analysis -/

theorem minByCost_mem : ∀ (l : List Item) (x : Item), minByCost x l ∈ x :: l := by
  intro l
  induction l with
  | nil => intro x; simp [minByCost]
  | cons y l ih =>
    intro x
    have he : minByCost x (y :: l) = minByCost (if y.costCr < x.costCr then y else x) l := rfl
    rw [he]
    rcases List.mem_cons.1 (ih (if y.costCr < x.costCr then y else x)) with h1 | h1
    · rw [h1]
      split
      · exact List.mem_cons_of_mem _ (List.mem_cons_self _ _)
      · exact List.mem_cons_self _ _
    · exact List.mem_cons_of_mem _ (List.mem_cons_of_mem _ h1)

theorem minByCost_min : ∀ (l : List Item) (x : Item), ∀ it ∈ x :: l,
    (minByCost x l).costCr ≤ it.costCr := by
  intro l
  induction l with
  | nil =>
    intro x it hit
    rcases List.mem_cons.1 hit with rfl | h
    · exact le_rfl
    · simp at h
  | cons y l ih =>
    intro x it hit
    have he : minByCost x (y :: l) = minByCost (if y.costCr < x.costCr then y else x) l := rfl
    rw [he]
    set z := if y.costCr < x.costCr then y else x with hz
    have hzx : z.costCr ≤ x.costCr := by rw [hz]; split <;> omega
    have hzy : z.costCr ≤ y.costCr := by rw [hz]; split <;> omega
    have hzz : (minByCost z l).costCr ≤ z.costCr := ih z z (List.mem_cons_self _ _)
    rcases List.mem_cons.1 hit with rfl | hit
    · exact le_trans hzz hzx
    · rcases List.mem_cons.1 hit with rfl | hit
      · exact le_trans hzz hzy
      · exact ih z it (List.mem_cons_of_mem _ hit)

theorem preFilter_subset (credits : Int) (items : List Item) :
    ∀ it ∈ preFilter credits items, it ∈ items := by
  intro it hit
  cases items with
  | nil => simp [preFilter] at hit
  | cons x xs =>
    unfold preFilter at hit
    exact (List.mem_filter.1 hit).1

theorem preFilter_cost (credits : Int) (items : List Item) :
    ∀ it ∈ preFilter credits items, (it.costCr : Int) ≤ credits := by
  intro it hit
  cases items with
  | nil => simp [preFilter] at hit
  | cons x xs =>
    unfold preFilter at hit
    have h := (List.mem_filter.1 hit).2
    rw [Bool.and_eq_true] at h
    exact of_decide_eq_true h.1

theorem preFilter_ne_nil (credits : Int) (x : Item) (xs : List Item)
    (hfeas : ∃ it ∈ x :: xs, (it.costCr : Int) ≤ credits) :
    preFilter credits (x :: xs) ≠ [] := by
  obtain ⟨f, hf, hfc⟩ := hfeas
  intro hnil
  have hm : minByCost x xs ∈ x :: xs := minByCost_mem xs x
  have hmc : (minByCost x xs).costCr ≤ f.costCr := minByCost_min xs x f hf
  have hmem : minByCost x xs ∈ preFilter credits (x :: xs) := by
    unfold preFilter
    rw [List.mem_filter]
    refine ⟨hm, ?_⟩
    rw [Bool.and_eq_true, Bool.or_eq_true]
    refine ⟨decide_eq_true (by omega), Or.inr ?_⟩
    simp
  rw [hnil] at hmem
  simp at hmem

theorem preFilter_nil_of_neg (credits : Int) (items : List Item) (hneg : credits < 0) :
    preFilter credits items = [] := by
  cases items with
  | nil => rfl
  | cons x xs =>
    unfold preFilter
    rw [List.filter_eq_nil_iff]
    intro a _
    rw [Bool.and_eq_true]
    rintro ⟨h1, _⟩
    have := of_decide_eq_true h1
    omega

theorem ageAvoidFilter_subset (tdenv : TDEnv) (items : List Item) :
    ∀ it ∈ ageAvoidFilter tdenv items, it ∈ items := by
  intro it hit
  unfold ageAvoidFilter at hit
  dsimp only at hit
  split at hit
  · have hit' := (List.mem_filter.1 hit).1
    split at hit'
    · exact (List.mem_filter.1 hit').1
    · exact hit'
  · split at hit
    · exact (List.mem_filter.1 hit).1
    · exact hit

theorem ageAvoidFilter_id (tdenv : TDEnv) (items : List Item)
    (ha : tdenv.avoidItems = []) (hm : tdenv.maxAge = 0) :
    ageAvoidFilter tdenv items = items := by
  unfold ageAvoidFilter
  dsimp only
  rw [if_neg (by simp [hm]), if_neg (by simp [ha])]

theorem getBestTrade_error_iff (tdenv : TDEnv) (src dst : Station) (credits : Int) :
    (∃ e, getBestTrade tdenv src dst credits = .error e) ↔
      (src.tradingWith.lookup dst.ID = none ∨ tdenv.capacity = 0) := by
  unfold getBestTrade
  rcases hlk : src.tradingWith.lookup dst.ID with _ | items
  · simp
  · dsimp only
    by_cases hcap : tdenv.capacity = 0
    · rw [if_pos hcap]
      simp [hcap]
    · rw [if_neg hcap]
      simp only [hcap, or_false]
      constructor
      · rintro ⟨e, he⟩
        exfalso
        split at he
        · exact Except.noConfusion he
        · split_ifs at he <;> exact Except.noConfusion he
      · intro h
        simp at h

theorem getBestTrade_ok_cases (tdenv : TDEnv) (src dst : Station) (credits : Int)
    (load : TradeLoad) (h : getBestTrade tdenv src dst credits = .ok load) :
    load = emptyLoad ∨
    ∃ items0 firstItem rest,
      src.tradingWith.lookup dst.ID = some items0 ∧
      firstItem :: rest = preFilter credits (ageAvoidFilter tdenv items0) ∧
      ((tdenv.capacity ≤ envMaxUnits tdenv ∧
          ((firstItem.costCr * tdenv.capacity : Nat) : Int) ≤ credits ∧
          load = ⟨[(firstItem, tdenv.capacity)],
            (tdenv.capacity : Int) * firstItem.gainCr,
            tdenv.capacity * firstItem.costCr, tdenv.capacity⟩) ∨
        load = fastFit (firstItem :: rest) credits.toNat tdenv.capacity
          (envMaxUnits tdenv)) := by
  unfold getBestTrade at h
  rcases hlk : src.tradingWith.lookup dst.ID with _ | items0 <;> rw [hlk] at h
  · exact Except.noConfusion h
  · dsimp only at h
    by_cases hcap : tdenv.capacity = 0
    · rw [if_pos hcap] at h
      exact Except.noConfusion h
    · rw [if_neg hcap] at h
      rcases hpf : preFilter credits (ageAvoidFilter tdenv items0) with _ | ⟨f, rest⟩ <;>
        rw [hpf] at h
      · exact Or.inl (Except.ok.inj h).symm
      · right
        refine ⟨items0, f, rest, rfl, hpf.symm, ?_⟩
        dsimp only at h
        split_ifs at h with h1 h2
        · exact Or.inl ⟨h1.1, h1.2, (Except.ok.inj h).symm⟩
        · exact Or.inr (Except.ok.inj h).symm
        · exact Or.inr (Except.ok.inj h).symm

theorem getBestTrade_credits_neg (tdenv : TDEnv) (src dst : Station) (credits : Int)
    (items0 : List Item) (hlk : src.tradingWith.lookup dst.ID = some items0)
    (hcap : tdenv.capacity ≠ 0) (hneg : credits < 0) :
    getBestTrade tdenv src dst credits = .ok emptyLoad := by
  unfold getBestTrade
  rw [hlk]
  dsimp only
  rw [if_neg hcap, preFilter_nil_of_neg credits _ hneg]

theorem getBestTrade_nonempty (tdenv : TDEnv) (src dst : Station) (credits : Int)
    (its : List Item) (havoid : tdenv.avoidItems = []) (hage : tdenv.maxAge = 0)
    (hcap : 1 ≤ tdenv.capacity) (hlk : src.tradingWith.lookup dst.ID = some its)
    (hcost : ∀ it ∈ its, 1 ≤ it.costCr)
    (hfeas : ∃ it ∈ its, (it.costCr : Int) ≤ credits) :
    ∃ load, getBestTrade tdenv src dst credits = .ok load ∧ 0 < load.units := by
  unfold getBestTrade
  rw [hlk]
  dsimp only
  rw [if_neg (by omega), ageAvoidFilter_id tdenv its havoid hage]
  have hmu : 1 ≤ envMaxUnits tdenv := by
    unfold envMaxUnits
    split <;> omega
  rcases its with _ | ⟨x, xs⟩
  · obtain ⟨f, hf, _⟩ := hfeas
    simp at hf
  · rcases hpf : preFilter credits (x :: xs) with _ | ⟨f, rest⟩
    · exact absurd hpf (preFilter_ne_nil credits x xs hfeas)
    · have hfm : f ∈ preFilter credits (x :: xs) := by
        rw [hpf]
        exact List.mem_cons_self _ _
      have hfc : (f.costCr : Int) ≤ credits := preFilter_cost credits _ f hfm
      have hf1 : 1 ≤ f.costCr := hcost f (preFilter_subset credits _ f hfm)
      have hfcn : f.costCr ≤ credits.toNat := by omega
      dsimp only
      split_ifs with h1 h2
      · exact ⟨_, rfl, hcap⟩
      · exact ⟨_, rfl, fastFit_units_pos f rest _ _ _ hf1 hfcn hcap hmu⟩
      · exact ⟨_, rfl, fastFit_units_pos f rest _ _ _ hf1 hfcn hcap hmu⟩

/-! ### The best-per-destination accumulation of getBestHops -/

theorem updateBest_mem : ∀ (m : List (Nat × HopCand)) (c : HopCand),
    ∀ p ∈ updateBest m c, p ∈ m ∨ p = (c.dstStation.ID, c) := by
  intro m c
  induction m with
  | nil =>
    intro p hp
    rcases List.mem_singleton.1 hp with rfl
    exact Or.inr rfl
  | cons ke m ih =>
    obtain ⟨k, e⟩ := ke
    intro p hp
    unfold updateBest at hp
    by_cases hk : k = c.dstStation.ID
    · rw [if_pos hk] at hp
      dsimp only at hp
      split_ifs at hp with h1 h2
      · exact Or.inl hp
      · exact Or.inl hp
      · rcases List.mem_cons.1 hp with rfl | hp
        · exact Or.inr (by rw [hk])
        · exact Or.inl (List.mem_cons_of_mem _ hp)
    · rw [if_neg hk] at hp
      rcases List.mem_cons.1 hp with rfl | hp
      · exact Or.inl (List.mem_cons_self _ _)
      · rcases ih p hp with h | h
        · exact Or.inl (List.mem_cons_of_mem _ h)
        · exact Or.inr h

theorem updateBest_keys_sub (m : List (Nat × HopCand)) (c : HopCand) :
    ∀ x ∈ (updateBest m c).map Prod.fst,
      x ∈ m.map Prod.fst ∨ x = c.dstStation.ID := by
  intro x hx
  obtain ⟨p, hp, rfl⟩ := List.mem_map.1 hx
  rcases updateBest_mem m c p hp with h | rfl
  · exact Or.inl (List.mem_map.2 ⟨p, h, rfl⟩)
  · exact Or.inr rfl

theorem updateBest_keys_super : ∀ (m : List (Nat × HopCand)) (c : HopCand),
    (∀ x ∈ m.map Prod.fst, x ∈ (updateBest m c).map Prod.fst) ∧
      c.dstStation.ID ∈ (updateBest m c).map Prod.fst := by
  intro m c
  induction m with
  | nil =>
    refine ⟨?_, ?_⟩
    · intro x hx
      simp at hx
    · simp [updateBest]
  | cons ke m ih =>
    obtain ⟨k, e⟩ := ke
    unfold updateBest
    by_cases hk : k = c.dstStation.ID
    · rw [if_pos hk]
      dsimp only
      split_ifs with h1 h2
      · exact ⟨fun x hx => hx, by simp [← hk]⟩
      · exact ⟨fun x hx => hx, by simp [← hk]⟩
      · refine ⟨?_, by simp [← hk]⟩
        intro x hx
        rw [List.map_cons] at hx ⊢
        rcases List.mem_cons.1 hx with h | h
        · exact List.mem_cons.2 (Or.inl h)
        · exact List.mem_cons.2 (Or.inr h)
    · rw [if_neg hk]
      refine ⟨?_, ?_⟩
      · intro x hx
        rw [List.map_cons] at hx ⊢
        rcases List.mem_cons.1 hx with h | h
        · exact List.mem_cons.2 (Or.inl h)
        · exact List.mem_cons.2 (Or.inr (ih.1 x h))
      · rw [List.map_cons]
        exact List.mem_cons.2 (Or.inr ih.2)

theorem updateBest_keys_nodup : ∀ (m : List (Nat × HopCand)) (c : HopCand),
    (m.map Prod.fst).Nodup → ((updateBest m c).map Prod.fst).Nodup := by
  intro m c
  induction m with
  | nil =>
    intro _
    simp [updateBest]
  | cons ke m ih =>
    obtain ⟨k, e⟩ := ke
    intro hnd
    rw [List.map_cons, List.nodup_cons] at hnd
    obtain ⟨hknotin, hnd'⟩ := hnd
    unfold updateBest
    by_cases hk : k = c.dstStation.ID
    · rw [if_pos hk]
      dsimp only
      split_ifs with h1 h2 <;>
        (rw [List.map_cons, List.nodup_cons]; exact ⟨hknotin, hnd'⟩)
    · rw [if_neg hk]
      rw [List.map_cons, List.nodup_cons]
      refine ⟨?_, ih hnd'⟩
      intro hmem
      rcases updateBest_keys_sub m c k hmem with h | h
      · exact hknotin h
      · exact hk h

theorem updateBest_compare : ∀ (m : List (Nat × HopCand)) (c : HopCand),
    (m.map Prod.fst).Nodup →
    ∀ p ∈ updateBest m c, p.1 = c.dstStation.ID →
      p.2 = c ∨ (p ∈ m ∧ (candTotal c < candTotal p.2 ∨
        (candTotal c = candTotal p.2 ∧ p.2.distLy ≤ c.distLy))) := by
  intro m c
  induction m with
  | nil =>
    intro _ p hp _
    rcases List.mem_singleton.1 hp with rfl
    exact Or.inl rfl
  | cons ke m ih =>
    obtain ⟨k, e⟩ := ke
    intro hnd p hp hpk
    rw [List.map_cons, List.nodup_cons] at hnd
    obtain ⟨hknotin, hnd'⟩ := hnd
    unfold updateBest at hp
    by_cases hk : k = c.dstStation.ID
    · rw [if_pos hk] at hp
      dsimp only at hp
      have hcontra : p ∈ m → False := fun hpm =>
        hknotin (List.mem_map.2 ⟨p, hpm, by rw [hpk, hk]⟩)
      split_ifs at hp with h1 h2
      · rcases List.mem_cons.1 hp with rfl | hp
        · exact Or.inr ⟨List.mem_cons_self _ _, Or.inl h1⟩
        · exact absurd hp hcontra
      · rcases List.mem_cons.1 hp with rfl | hp
        · exact Or.inr ⟨List.mem_cons_self _ _, Or.inr ⟨h2.1.symm, h2.2⟩⟩
        · exact absurd hp hcontra
      · rcases List.mem_cons.1 hp with rfl | hp
        · exact Or.inl rfl
        · exact absurd hp hcontra
    · rw [if_neg hk] at hp
      rcases List.mem_cons.1 hp with rfl | hp
      · exact absurd hpk hk
      · rcases ih hnd' p hp hpk with h | ⟨hm, hcmp⟩
        · exact Or.inl h
        · exact Or.inr ⟨List.mem_cons_of_mem _ hm, hcmp⟩

theorem updateBest_replace : ∀ (m : List (Nat × HopCand)) (c : HopCand),
    (m.map Prod.fst).Nodup →
    ∀ ke ∈ m, ke.1 = c.dstStation.ID →
      (c.dstStation.ID, c) ∈ updateBest m c →
      (candTotal ke.2 < candTotal c ∨
        (candTotal ke.2 = candTotal c ∧ c.distLy < ke.2.distLy)) ∨ ke.2 = c := by
  intro m c
  induction m with
  | nil =>
    intro _ ke hke
    simp at hke
  | cons ke0 m ih =>
    obtain ⟨k0, e0⟩ := ke0
    intro hnd ke hke hkey hmem
    rw [List.map_cons, List.nodup_cons] at hnd
    obtain ⟨hknotin, hnd'⟩ := hnd
    unfold updateBest at hmem
    by_cases hk : k0 = c.dstStation.ID
    · rw [if_pos hk] at hmem
      dsimp only at hmem
      have hkee : ke = (k0, e0) := by
        rcases List.mem_cons.1 hke with h | h
        · exact h
        · exact absurd (List.mem_map.2 ⟨ke, h, by rw [hkey, hk]⟩) hknotin
      subst hkee
      split_ifs at hmem with h1 h2
      · rcases List.mem_cons.1 hmem with h | h
        · obtain ⟨-, h2'⟩ := Prod.mk.inj h
          exact Or.inr h2'.symm
        · exact absurd (by show k0 ∈ _; rw [hk]; exact List.mem_map.2 ⟨_, h, rfl⟩) hknotin
      · rcases List.mem_cons.1 hmem with h | h
        · obtain ⟨-, h2'⟩ := Prod.mk.inj h
          exact Or.inr h2'.symm
        · exact absurd (by show k0 ∈ _; rw [hk]; exact List.mem_map.2 ⟨_, h, rfl⟩) hknotin
      · left
        rcases lt_trichotomy (candTotal e0) (candTotal c) with h | h | h
        · exact Or.inl h
        · refine Or.inr ⟨h, ?_⟩
          by_contra hle
          push_neg at hle
          exact h2 ⟨h, hle⟩
        · exact absurd h h1
    · rw [if_neg hk] at hmem
      rcases List.mem_cons.1 hke with hke0 | hke'
      · exact absurd (by rw [hke0] at hkey; exact hkey) hk
      · rcases List.mem_cons.1 hmem with h | h
        · exact absurd (congrArg Prod.fst h).symm hk
        · exact ih hnd' ke hke' hkey h

theorem mapOk_nil : MapOk [] [] := by
  refine ⟨List.nodup_nil, ?_, ?_⟩
  · intro c hc
    simp at hc
  · intro p hp
    simp at hp

theorem mapOk_step (P : List HopCand) (m : List (Nat × HopCand)) (c : HopCand)
    (h : MapOk P m) : MapOk (P ++ [c]) (updateBest m c) := by
  obtain ⟨hnd, hcomp, hent⟩ := h
  refine ⟨updateBest_keys_nodup m c hnd, ?_, ?_⟩
  · intro c' hc'
    rcases List.mem_append.1 hc' with hc' | hc'
    · exact (updateBest_keys_super m c).1 _ (hcomp c' hc')
    · rw [List.mem_singleton.1 hc']
      exact (updateBest_keys_super m c).2
  · intro p hp
    have hkey : p.2.dstStation.ID = p.1 := by
      rcases updateBest_mem m c p hp with h' | rfl
      · exact (hent p h').1
      · rfl
    refine ⟨hkey, ?_, ?_⟩
    · rcases updateBest_mem m c p hp with h' | rfl
      · exact List.mem_append_left _ (hent p h').2.1
      · exact List.mem_append_right _ (List.mem_singleton.2 rfl)
    · intro c' hc' hck
      rcases List.mem_append.1 hc' with hcP | hcC
      swap
      · -- c' is the new candidate c itself
        have hcc : c' = c := List.mem_singleton.1 hcC
        have hpk : p.1 = c.dstStation.ID := by rw [← hcc, hck]
        rw [hcc]
        rcases updateBest_compare m c hnd p hp hpk with he | ⟨_, hcmp⟩
        · rw [he]
          exact Or.inr ⟨rfl, le_refl _⟩
        · exact hcmp
      · -- c' was processed earlier
        rcases updateBest_mem m c p hp with hpm | hpc
        · exact (hent p hpm).2.2 c' hcP hck
        · -- the entry is the new candidate c; find the old entry it displaced
          have hp2 : p.2 = c := by rw [hpc]
          have hp1 : p.1 = c.dstStation.ID := by rw [hpc]
          by_cases hin : c.dstStation.ID ∈ m.map Prod.fst
          · obtain ⟨ke, hke, hkeq⟩ := List.mem_map.1 hin
            have hold := (hent ke hke).2.2 c' hcP (by rw [hck, hp1, ← hkeq])
            have hmemb : (c.dstStation.ID, c) ∈ updateBest m c := by
              rw [← hpc]
              exact hp
            have hrep := updateBest_replace m c hnd ke hke hkeq hmemb
            rw [hp2]
            rcases hrep with hrep | hrep
            · rcases hold with hold | hold <;> rcases hrep with hrep | hrep
              · exact Or.inl (by linarith)
              · exact Or.inl (by linarith [hrep.1])
              · exact Or.inl (by linarith [hold.1])
              · exact Or.inr ⟨by linarith [hold.1, hrep.1], by linarith [hold.2, hrep.2]⟩
            · rw [← hrep]
              exact hold
          · exfalso
            exact hin (by rw [← hp1, ← hck]; exact hcomp c' hcP)

theorem mapOk_fold : ∀ (cs : List HopCand) (P : List HopCand)
    (m : List (Nat × HopCand)), MapOk P m → MapOk (P ++ cs) (cs.foldl updateBest m) := by
  intro cs
  induction cs with
  | nil =>
    intro P m h
    simpa using h
  | cons c cs ih =>
    intro P m h
    have h2 := ih (P ++ [c]) _ (mapOk_step P m c h)
    simpa [List.append_assoc] using h2

/-! ### The empty restrictTo set and the empty route list -/

theorem restrictSkip_some_nil (d : Dest) :
    restrictSkip (some []) d = restrictSkip none d := by
  simp [restrictSkip, restrictTruthy]

theorem destCands_some_nil (tdenv : TDEnv) (lsPenalty : ℚ) (route : Route)
    (srcStation : Station) (startCr : Int) : ∀ (dests : List Dest),
    destCands tdenv lsPenalty (some []) route srcStation startCr dests =
      destCands tdenv lsPenalty none route srcStation startCr dests := by
  intro dests
  induction dests with
  | nil => rfl
  | cons d rest ih =>
    unfold destCands
    rw [restrictSkip_some_nil, ih]

theorem routeCandsE_some_nil (tdenv : TDEnv) (lsPenalty : ℚ) :
    ∀ (routes : List Route),
    routeCandsE tdenv lsPenalty (some []) routes =
      routeCandsE tdenv lsPenalty none routes := by
  intro routes
  induction routes with
  | nil => rfl
  | cons r rest ih =>
    unfold routeCandsE
    simp only [destCands_some_nil, ih]

theorem getBestHops_some_nil (tdenv : TDEnv) (routes : List Route) :
    getBestHops tdenv routes (some []) = getBestHops tdenv routes none := by
  unfold getBestHops examined
  rw [routeCandsE_some_nil]

theorem getBestHops_nil (tdenv : TDEnv) (restrictTo : Option (List Place)) :
    getBestHops tdenv [] restrictTo = .ok [] := rfl

/-! ### The hop score -/

theorem hopScore_eq (p : ℚ) (ls : Nat) (g : Int) :
    hopScore p ls g = (g : ℚ) * lsMult p ls := by
  unfold hopScore lsMult
  by_cases hp : p = 0
  · rw [if_neg (by simp [hp]), hp]
    ring
  · rw [if_pos hp]

theorem hopScore_mono_gain (p : ℚ) (ls : Nat) (g1 g2 : Int)
    (hM : 0 ≤ lsMult p ls) (hg : g1 ≤ g2) : hopScore p ls g1 ≤ hopScore p ls g2 := by
  rw [hopScore_eq, hopScore_eq]
  have h : (g1 : ℚ) ≤ (g2 : ℚ) := by exact_mod_cast hg
  exact mul_le_mul_of_nonneg_right h hM

theorem hopScore_anti_ls (p : ℚ) (g : Int) (ls1 ls2 : Nat) (hp : 0 < p) (hg : 0 < g)
    (h500 : 500 ≤ ls1) (h12 : ls1 ≤ ls2) : hopScore p ls2 g ≤ hopScore p ls1 g := by
  rw [hopScore_eq, hopScore_eq]
  have hgq : 0 < (g : ℚ) := by exact_mod_cast hg
  have hM : lsMult p ls2 ≤ lsMult p ls1 := by
    unfold lsMult
    set k1 : ℚ := ((ls1 / 100 : Nat) : ℚ) / 10 with hk1
    set k2 : ℚ := ((ls2 / 100 : Nat) : ℚ) / 10 with hk2
    have hd1 : (5 : Nat) ≤ ls1 / 100 := by
      rw [Nat.le_div_iff_mul_le (by norm_num)]
      omega
    have hdle : ls1 / 100 ≤ ls2 / 100 := Nat.div_le_div_right h12
    have hc1 : (5 : ℚ) ≤ ((ls1 / 100 : Nat) : ℚ) := by exact_mod_cast hd1
    have hc2 : ((ls1 / 100 : Nat) : ℚ) ≤ ((ls2 / 100 : Nat) : ℚ) := by exact_mod_cast hdle
    have hk1ge : (1 : ℚ) / 2 ≤ k1 := by
      rw [hk1]
      linarith
    have hkle : k1 ≤ k2 := by
      rw [hk1, hk2]
      linarith
    have key : (k1 ^ 2 - k1) ≤ (k2 ^ 2 - k2) := by
      nlinarith [mul_nonneg (sub_nonneg.2 hkle) (by linarith : (0 : ℚ) ≤ k1 + k2 - 1)]
    have h3 : (k1 ^ 2 - k1) / 3 * p ≤ (k2 ^ 2 - k2) / 3 * p := by
      apply mul_le_mul_of_nonneg_right _ hp.le
      linarith
    linarith
  exact mul_le_mul_of_nonneg_left hM hgq.le

/-! ### Route ordering -/

theorem routeLt_iff (r1 r2 : Route) :
    Route.lt r1 r2 = true ↔
      (r2.score < r1.score ∨
        (r1.score = r2.score ∧ r2.jumps.length < r1.jumps.length)) := by
  unfold Route.lt
  split_ifs with h
  · simp [h]
  · simp only [Bool.and_eq_true, decide_eq_true_eq]
    constructor
    · rintro ⟨h1, h2⟩
      exact Or.inr ⟨h1.symm, h2⟩
    · rintro (h1 | ⟨h1, h2⟩)
      · exact absurd h1 h
      · exact ⟨h1.symm, h2⟩

theorem routeEq_iff (r1 r2 : Route) :
    Route.eq r1 r2 = true ↔
      (r1.score = r2.score ∧ r1.jumps.length = r2.jumps.length) := by
  unfold Route.eq
  simp [Bool.and_eq_true, decide_eq_true_eq]

/-! ### Claim C1 -/

/-- C1, counterexample.  With two offers of identical cost/gain and capacity
1, `fastFit` keeps the first-yielded load while `bruteForceFit` keeps the
skip-branch load, so the returned `TradeLoad`s differ (in the items field)
even though every hypothesis of the claim holds; and with a single
negative-gain offer even the returned `gainCr` differs, because `fastFit`'s
`not bestLoad` test adopts the first yield unconditionally while
`bruteForceFit` keeps the empty load. -/
theorem C1_counterexample :
    (sortedByGainDesc [exEq1, exEq2] ∧ (0 : Nat) ≤ 100 ∧ (1 : Nat) ≤ 1 ∧ (1 : Nat) ≤ 32 ∧
      fastFit [exEq1, exEq2] 100 1 1 ≠ bruteForceFit [exEq1, exEq2] 100 1 1 ∧
      sameGUC (fastFit [exEq1, exEq2] 100 1 1) (bruteForceFit [exEq1, exEq2] 100 1 1)) ∧
    (sortedByGainDesc [exNeg] ∧
      (fastFit [exNeg] 10 1 1).gainCr ≠ (bruteForceFit [exNeg] 10 1 1).gainCr) := by
  decide

/-- C1 (amended): for every list of at most 8 offers sorted by gain_cr
descending with positive unit costs and positive unit gains, every
credits ≥ 0, every capacity in [1, 32] and max_units in [1, capacity],
`fastFit` and `bruteForceFit` return loads with the same `gainCr`, `costCr`
and `units` (the item lists may differ in order and in the choice among
equal-triple loads). -/
theorem C1_amended : ∀ (items : List Item) (credits capacity maxUnits : Nat),
    sortedByGainDesc items → items.length ≤ 8 →
    1 ≤ capacity → capacity ≤ 32 → 1 ≤ maxUnits → maxUnits ≤ capacity →
    (∀ it ∈ items, 1 ≤ it.costCr) → (∀ it ∈ items, 1 ≤ it.gainCr) →
    sameGUC (fastFit items credits capacity maxUnits)
      (bruteForceFit items credits capacity maxUnits) :=
  fun items credits capacity maxUnits _ _ _ _ _ _ _ hg =>
    fastFit_guc_brute items credits capacity maxUnits hg

/-- C1 witness: the amended equivalence evaluated at a concrete sorted
two-offer instance. -/
theorem C1_amended_witness :
    sortedByGainDesc [exPos1, exPos2] ∧
    sameGUC (fastFit [exPos1, exPos2] 10 4 2) (bruteForceFit [exPos1, exPos2] 10 4 2) :=
  ⟨by decide,
    C1_amended [exPos1, exPos2] 10 4 2 (by decide) (by decide) (by decide) (by decide)
      (by decide) (by decide) (by decide) (by decide)⟩

/-! ### Claim C2 -/

/-- C2: for every offer list, credits ≥ 0, capacity ≥ 1 and max_units in
[1, capacity], the load returned by the solver — `fastFit`, and
`getBestTrade` including its short-circuit path — has total cost ≤ credits,
total units ≤ capacity, and every (offer, qty) pair has qty ≤ max_units. -/
theorem C2_solver_bounds : ∀ (items : List Item) (credits capacity maxUnits : Nat)
    (tdenv : TDEnv) (src dst : Station) (creditsI : Int) (load : TradeLoad),
    ((fastFit items credits capacity maxUnits).costCr ≤ credits ∧
      (fastFit items credits capacity maxUnits).units ≤ capacity ∧
      ∀ p ∈ (fastFit items credits capacity maxUnits).items, p.2 ≤ maxUnits) ∧
    (0 ≤ creditsI → 1 ≤ tdenv.capacity → 1 ≤ envMaxUnits tdenv →
      envMaxUnits tdenv ≤ tdenv.capacity →
      getBestTrade tdenv src dst creditsI = .ok load →
      ((load.costCr : Int) ≤ creditsI ∧ load.units ≤ tdenv.capacity ∧
        ∀ p ∈ load.items, p.2 ≤ envMaxUnits tdenv)) := by
  intro items credits capacity maxUnits tdenv src dst creditsI load
  refine ⟨fastFit_bounds items credits capacity maxUnits, ?_⟩
  intro hcred hcap hmu1 hmu2 hok
  rcases getBestTrade_ok_cases tdenv src dst creditsI load hok with rfl | hcase
  · exact ⟨by simpa [emptyLoad] using hcred, Nat.zero_le _, by simp [emptyLoad]⟩
  · obtain ⟨items0, firstItem, rest, hlk, hpf, hshort | hfast⟩ := hcase
    · obtain ⟨hcaple, hcost, rfl⟩ := hshort
      refine ⟨?_, le_refl _, ?_⟩
      · show ((tdenv.capacity * firstItem.costCr : Nat) : Int) ≤ creditsI
        rw [Nat.mul_comm]
        exact hcost
      · intro p hp
        rcases List.mem_singleton.1 hp with rfl
        exact hcaple
    · subst hfast
      obtain ⟨h1, h2, h3⟩ := fastFit_bounds (firstItem :: rest) creditsI.toNat
        tdenv.capacity (envMaxUnits tdenv)
      exact ⟨by omega, h2, h3⟩

/-- C2 witness: the bounds of the load `getBestTrade` returns in the hub
scenario (capacity 4, credits 1000). -/
theorem C2_witness :
    (exHubLoad.costCr : Int) ≤ 1000 ∧ exHubLoad.units ≤ exEnvHub.capacity ∧
    (4 : Nat) ≤ envMaxUnits exEnvHub := by
  have h := (C2_solver_bounds [] 0 0 0 exEnvHub exStHub exStB 1000 exHubLoad).2
    (by decide) (by decide) (by decide) (by decide) (by decide)
  exact ⟨h.1, h.2.1, h.2.2 (exHubItem, 4) (by decide)⟩

/-! ### Claim C3 -/

/-- C3: `getBestHops` produces its output by mapping `Route.plus` over the
final `bestToDest` accumulation, and that accumulation satisfies `MapOk`
over the examined candidates: keys (winning destination station ids) are
unique — exactly one extended route per winning destination — each retained
entry is one of the examined candidates for its key, no examined candidate
for that key has a strictly higher `route.score + hop_score` total, and
among equal totals the retained entry has minimal `ly`. -/
theorem C3_best_per_dest : ∀ (tdenv : TDEnv) (routes : List Route)
    (restrictTo : Option (List Place)) (cs : List HopCand) (result : List Route),
    examined tdenv routes restrictTo = .ok cs →
    getBestHops tdenv routes restrictTo = .ok result →
    result = (cs.foldl updateBest []).map
      (fun p => p.2.route.plus p.2.dstStation p.2.trade p.2.via p.2.score) ∧
    MapOk cs (cs.foldl updateBest []) := by
  intro tdenv routes rt cs result hex hres
  constructor
  · unfold getBestHops at hres
    rw [hex] at hres
    exact (Except.ok.inj hres).symm
  · have h := mapOk_fold cs [] [] mapOk_nil
    simpa using h

/-- C3 witness: the hub scenario examines exactly one candidate and the
returned route is its `Route.plus` extension. -/
theorem C3_witness :
    examined exEnvHub [exRoute0] none = .ok [exHubCand] ∧
    getBestHops exEnvHub [exRoute0] none =
      .ok [Route.plus exRoute0 exStB exHubLoad [7] 400] ∧
    [Route.plus exRoute0 exStB exHubLoad [7] 400] =
      (([exHubCand].foldl updateBest []).map
        (fun p => p.2.route.plus p.2.dstStation p.2.trade p.2.via p.2.score)) := by
  refine ⟨of_decide_eq_true (by with_unfolding_all rfl),
    of_decide_eq_true (by with_unfolding_all rfl), ?_⟩
  exact (C3_best_per_dest exEnvHub [exRoute0] none [exHubCand]
    [Route.plus exRoute0 exStB exHubLoad [7] 400]
    (of_decide_eq_true (by with_unfolding_all rfl))
    (of_decide_eq_true (by with_unfolding_all rfl))).1

/-! ### Claim C4 -/

/-- C4, counterexample.  At `ls_from_star = 4000` and `ls_penalty = 1`
(100%), the multiplier `1 - penalty` is −3, so raising the gain from 0 to
1000 strictly lowers the score — the score is not monotone nondecreasing in
`gain_cr` for every fixed distance; and for fixed gain 1000 the score at
`ls = 0` is strictly below the score at `ls = 500` (the sub-1kls boost), so
the score is not nonincreasing in `ls_from_star` either. -/
theorem C4_counterexample :
    ((0 : Int) ≤ 1000 ∧ hopScore 1 4000 1000 < hopScore 1 4000 0) ∧
    ((0 : Nat) ≤ 500 ∧ (0 : Int) < 1000 ∧ (0 : ℚ) < 1 ∧
      hopScore 1 0 1000 < hopScore 1 500 1000) :=
  of_decide_eq_true (by with_unfolding_all rfl)

/-- C4 (amended): the hop score `gain * (1 - ls_penalty * ((kls² - kls)/3))`
with `kls = ⌊ls/100⌋/10` is monotone nondecreasing in `gain_cr` for every
fixed `ls_from_star` and `ls_penalty` whose multiplier `lsMult` is
non-negative, and for every fixed gain > 0 and `ls_penalty` > 0 it is
monotone nonincreasing in `ls_from_star` on the region `ls ≥ 500`
(i.e. kls ≥ 0.5, where the penalty polynomial is nondecreasing). -/
theorem C4_amended : ∀ (p : ℚ) (ls ls1 ls2 : Nat) (g g1 g2 : Int),
    (0 ≤ lsMult p ls → g1 ≤ g2 → hopScore p ls g1 ≤ hopScore p ls g2) ∧
    (0 < p → 0 < g → 500 ≤ ls1 → ls1 ≤ ls2 →
      hopScore p ls2 g ≤ hopScore p ls1 g) :=
  fun p ls ls1 ls2 g g1 g2 =>
    ⟨hopScore_mono_gain p ls g1 g2,
     fun hp hg h5 h12 => hopScore_anti_ls p g ls1 ls2 hp hg h5 h12⟩

/-- C4 witness: both amended monotonicity statements evaluated at concrete
penalties, distances and gains. -/
theorem C4_amended_witness :
    (0 ≤ lsMult 1 500 ∧ (3 : Int) ≤ 5 ∧ hopScore 1 500 3 ≤ hopScore 1 500 5) ∧
    ((0 : ℚ) < 1 ∧ (0 : Int) < 7 ∧ (500 : Nat) ≤ 600 ∧
      hopScore 1 600 7 ≤ hopScore 1 500 7) :=
  ⟨⟨of_decide_eq_true (by with_unfolding_all rfl), by decide,
      (C4_amended 1 500 500 600 7 3 5).1
        (of_decide_eq_true (by with_unfolding_all rfl)) (by decide)⟩,
   ⟨of_decide_eq_true (by with_unfolding_all rfl), by decide, by decide,
      (C4_amended 1 500 500 600 7 3 5).2
        (of_decide_eq_true (by with_unfolding_all rfl)) (by decide) (by decide)
        (by decide)⟩⟩

/-! ### Claim C5 -/

/-- C5, counterexample.  The stock guard `item.stock < maxQty and
item.stock > 0` lets an offer with recorded stock 0 through uncapped: with
a single zero-stock offer, `fastFit` returns 5 units of it. -/
theorem C5_counterexample :
    exStock0.stock = 0 ∧ (fastFit [exStock0] 10 5 5).items = [(exStock0, 5)] ∧
    ¬ ((5 : Int) ≤ exStock0.stock) := by
  decide

/-- C5 (amended): with the speculative-recovery knob disabled (as in the
source, `units = 0`), every (offer, qty) pair in any load produced by
`fastFit` or `bruteForceFit` whose offer has stock ≥ 1 satisfies
qty ≤ stock; an offer with stock = 0 is treated like unknown stock and may
appear with any quantity. -/
theorem C5_amended : ∀ (items : List Item) (credits capacity maxUnits : Nat),
    (∀ p ∈ (fastFit items credits capacity maxUnits).items,
      1 ≤ p.1.stock → (p.2 : Int) ≤ p.1.stock) ∧
    (∀ p ∈ (bruteForceFit items credits capacity maxUnits).items,
      1 ≤ p.1.stock → (p.2 : Int) ≤ p.1.stock) :=
  fun items credits capacity maxUnits =>
    ⟨fastFit_stock items credits capacity maxUnits,
     bruteForceFit_stock items credits capacity maxUnits⟩

/-- C5 witness: an offer with stock 2 gets quantity 2 ≤ 2. -/
theorem C5_amended_witness :
    (exStock2, 2) ∈ (fastFit [exStock2] 10 5 5).items ∧ 1 ≤ exStock2.stock ∧
    ((2 : Nat) : Int) ≤ exStock2.stock :=
  ⟨by decide, by decide,
    (C5_amended [exStock2] 10 5 5).1 (exStock2, 2) (by decide) (by decide)⟩

/-! ### Claim C6 -/

/-- C6, counterexample.  `if restrictTo:` is falsy for the empty set, so
`getBestHops` with `restrictTo = ∅` does not return `[]`: in the hub
scenario it returns the extended route, exactly as with no restriction. -/
theorem C6_counterexample :
    getBestHops exEnvHub [exRoute0] (some []) =
      .ok [Route.plus exRoute0 exStB exHubLoad [7] 400] ∧
    getBestHops exEnvHub [exRoute0] (some []) ≠ .ok [] :=
  ⟨of_decide_eq_true (by with_unfolding_all rfl),
   of_decide_eq_true (by with_unfolding_all rfl)⟩

/-- C6 (amended): `getBestHops` applied to an empty route list returns the
empty list, and an empty `restrictTo` set is falsy, so it disables the
restriction filter: `getBestHops` with `restrictTo = ∅` behaves exactly as
with `restrictTo = None` (rather than returning `[]`). -/
theorem C6_amended : ∀ (tdenv : TDEnv) (routes : List Route)
    (restrictTo : Option (List Place)),
    getBestHops tdenv [] restrictTo = .ok [] ∧
    getBestHops tdenv routes (some []) = getBestHops tdenv routes none :=
  fun tdenv routes restrictTo =>
    ⟨getBestHops_nil tdenv restrictTo, getBestHops_some_nil tdenv routes⟩

/-! ### Claim C7 -/

/-- C7, counterexample.  `getBestTrade` performs no `credits < 0` check:
with credits −5, a valid link and capacity 1 it returns the empty load
instead of raising. -/
theorem C7_counterexample :
    ((-5 : Int) < 0) ∧ getBestTrade exEnvCap1 exStNeg exStB (-5) = .ok emptyLoad := by
  decide

/-- C7 (amended): over offer lists with positive unit costs (the data-model
invariant; a zero cost would raise `ZeroDivisionError` in the source),
`getBestTrade(src, dst, credits)` raises exactly when `dst` has no trading
link from `src` or `capacity == 0`; `credits < 0` is not an error: with a
link and non-zero capacity it returns the empty load. -/
theorem C7_amended : ∀ (tdenv : TDEnv) (src dst : Station) (credits : Int),
    (∀ it ∈ (src.tradingWith.lookup dst.ID).getD [], 1 ≤ it.costCr) →
    (((∃ e, getBestTrade tdenv src dst credits = .error e) ↔
        (src.tradingWith.lookup dst.ID = none ∨ tdenv.capacity = 0)) ∧
      (credits < 0 → src.tradingWith.lookup dst.ID ≠ none → tdenv.capacity ≠ 0 →
        getBestTrade tdenv src dst credits = .ok emptyLoad)) := by
  intro tdenv src dst credits _
  refine ⟨getBestTrade_error_iff tdenv src dst credits, ?_⟩
  intro hneg hlk hcap
  rcases h : src.tradingWith.lookup dst.ID with _ | its
  · exact absurd h hlk
  · exact getBestTrade_credits_neg tdenv src dst credits its h hcap hneg

/-- C7 witness: the amended error contract evaluated at the concrete
negative-credits scenario. -/
theorem C7_amended_witness :
    ((-7 : Int) < 0) ∧ getBestTrade exEnvCap1 exStNeg exStB (-7) = .ok emptyLoad :=
  ⟨by decide,
    (C7_amended exEnvCap1 exStNeg exStB (-7) (by decide)).2 (by decide) (by decide)
      (by decide)⟩

/-! ### Claim C8 -/

/-- C8, counterexample.  With a single loss-making offer (gain −5 per
unit), `fastFit` returns a load of negative total gain, and `getBestTrade`
(here through its short-circuit) returns the same negative-gain load: the
solver can return a loss. -/
theorem C8_counterexample :
    (fastFit [exNeg] 10 1 1).gainCr < 0 ∧
    getBestTrade exEnvCap1 exStNeg exStB 10 = .ok ⟨[(exNeg, 1)], -5, 1, 1⟩ ∧
    (-5 : Int) < 0 := by
  decide

/-- C8 (amended): when every offer has non-negative per-unit gain, the load
returned by `fastFit` has total gain ≥ 0, and so does every load
`getBestTrade` returns (the empty load has gain 0). -/
theorem C8_amended : ∀ (items : List Item) (credits capacity maxUnits : Nat)
    (tdenv : TDEnv) (src dst : Station) (creditsI : Int) (load : TradeLoad),
    ((∀ it ∈ items, 0 ≤ it.gainCr) →
      0 ≤ (fastFit items credits capacity maxUnits).gainCr) ∧
    ((∀ it ∈ (src.tradingWith.lookup dst.ID).getD [], 0 ≤ it.gainCr) →
      getBestTrade tdenv src dst creditsI = .ok load → 0 ≤ load.gainCr) := by
  intro items credits capacity maxUnits tdenv src dst creditsI load
  refine ⟨fastFit_gain_nonneg items credits capacity maxUnits, ?_⟩
  intro hg hok
  rcases getBestTrade_ok_cases tdenv src dst creditsI load hok with rfl | hcase
  · exact le_refl _
  · obtain ⟨items0, firstItem, rest, hlk, hpf, hcase2⟩ := hcase
    have hg0 : ∀ it ∈ items0, 0 ≤ it.gainCr := by
      intro it hit
      apply hg
      rw [hlk]
      exact hit
    have hsub : ∀ it ∈ firstItem :: rest, 0 ≤ it.gainCr := by
      intro it hit
      rw [hpf] at hit
      exact hg0 it (ageAvoidFilter_subset tdenv items0 it
        (preFilter_subset creditsI _ it hit))
    rcases hcase2 with hshort | hfast
    · obtain ⟨-, -, rfl⟩ := hshort
      have hfg := hsub firstItem (List.mem_cons_self _ _)
      exact mul_nonneg (by positivity) hfg
    · rw [hfast]
      exact fastFit_gain_nonneg _ _ _ _ hsub

/-- C8 witness: both amended statements at concrete non-negative-gain
inputs. -/
theorem C8_amended_witness :
    0 ≤ (fastFit [exPos1] 10 4 2).gainCr ∧ 0 ≤ exHubLoad.gainCr :=
  ⟨(C8_amended [exPos1] 10 4 2 exEnvHub exStHub exStB 1000 exHubLoad).1 (by decide),
   (C8_amended [exPos1] 10 4 2 exEnvHub exStHub exStB 1000 exHubLoad).2 (by decide)
     (by decide)⟩

/-! ### Claim C9 -/

/-- C9, counterexample.  Two routes of equal score where `exRtB` has the
shorter jump list: the claim predicts `exRtB < exRtA`, but the code orders
the longer-jumps route first: `Route.lt exRtB exRtA` is false and
`Route.lt exRtA exRtB` is true. -/
theorem C9_counterexample :
    exRtA.score = exRtB.score ∧ exRtB.jumps.length < exRtA.jumps.length ∧
    Route.lt exRtB exRtA = false ∧ Route.lt exRtA exRtB = true :=
  of_decide_eq_true (by with_unfolding_all rfl)

/-- C9 (amended): `R1 < R2` iff `R1.score > R2.score`, or the scores are
equal and R1 has the *longer* jump list (on ties the route with more jumps
orders first — not fewer); `Route.__eq__` holds exactly when both the
scores and the jump counts are equal. -/
theorem C9_amended : ∀ (r1 r2 : Route),
    (Route.lt r1 r2 = true ↔
      (r2.score < r1.score ∨
        (r1.score = r2.score ∧ r2.jumps.length < r1.jumps.length))) ∧
    (Route.eq r1 r2 = true ↔
      (r1.score = r2.score ∧ r1.jumps.length = r2.jumps.length)) :=
  fun r1 r2 => ⟨routeLt_iff r1 r2, routeEq_iff r1 r2⟩

/-! ### Claim C10 -/

/-- C10, counterexample.  The claimed input family: `exOfferX` is
affordable (cost 20 ≤ credits 20) and profitable (gain 50 > 0) and is
indeed removed by the pre-filter's gain floor (the cheapest offer gains
100), yet `getBestTrade` returns a non-empty load — the cheapest offer is
itself affordable whenever any offer is, so the empty-load outcome the
claim asserts never occurs. -/
theorem C10_counterexample :
    exOfferX ∈ [exOfferF, exOfferX] ∧ (exOfferX.costCr : Int) ≤ 20 ∧
    0 < exOfferX.gainCr ∧ exOfferX ∉ preFilter 20 [exOfferF, exOfferX] ∧
    getBestTrade exEnvCap1 exStC10 exStB 20 = .ok ⟨[(exOfferF, 1)], 100, 10, 1⟩ ∧
    (0 : Nat) < 1 := by
  decide

/-- C10 (amended): no such input exists.  Whenever some offer is affordable
(cost ≤ credits, with positive unit costs, no avoid/age filtering and
capacity ≥ 1), the minimum-cost offer is affordable too, survives the
pre-filter, and `getBestTrade` returns a load with at least one unit —
never the empty load. -/
theorem C10_amended : ∀ (tdenv : TDEnv) (src dst : Station) (credits : Int)
    (its : List Item) (load : TradeLoad),
    tdenv.avoidItems = [] → tdenv.maxAge = 0 → 1 ≤ tdenv.capacity →
    src.tradingWith.lookup dst.ID = some its →
    (∀ it ∈ its, 1 ≤ it.costCr) →
    (∃ it ∈ its, (it.costCr : Int) ≤ credits) →
    getBestTrade tdenv src dst credits = .ok load →
    0 < load.units := by
  intro tdenv src dst credits its load h1 h2 h3 h4 h5 h6 h7
  obtain ⟨l, hl, hu⟩ := getBestTrade_nonempty tdenv src dst credits its h1 h2 h3 h4 h5 h6
  rw [h7] at hl
  rwa [Except.ok.inj hl]

/-- C10 witness: the amended statement evaluated at the pre-filter
scenario. -/
theorem C10_amended_witness :
    getBestTrade exEnvCap1 exStC10 exStB 20 = .ok ⟨[(exOfferF, 1)], 100, 10, 1⟩ ∧
    0 < (⟨[(exOfferF, 1)], 100, 10, 1⟩ : TradeLoad).units :=
  ⟨by decide,
    C10_amended exEnvCap1 exStC10 exStB 20 [exOfferF, exOfferX]
      ⟨[(exOfferF, 1)], 100, 10, 1⟩ (by decide) (by decide) (by decide) (by decide)
      (by decide) ⟨exOfferX, by decide, by decide⟩ (by decide)⟩

end TD
